import Mathlib

/-!
Verification of the raster-skeleton-to-toolpath conversion engine of the
Drawing-Machine repository (src/image2gcode.py, StrokeProcessor, together with
src/calibration/conversion_utils.py).

The Python source is shallowly embedded as executable Lean functions:

* pixels are pairs of integers (x, y);
* the binary skeleton mask is a grid function together with its width and
  height; the pixel enumeration mirrors np.argwhere (row-major, flipped to
  (x, y) order);
* the convolution with kernel [[1,1,1],[1,10,1],[1,1,1]] at a foreground pixel
  is 10 + (number of foreground 8-neighbours), computed directly;
* the stroke extraction is modelled with explicit fuel for the inner while
  loops (the Python loops are while loops; fuel is chosen large enough, and no
  theorem below depends on the fuel being exhausted or not unless proved);
* Python's set.pop() returns an arbitrary element whose choice is
  implementation defined; the phase-2 sweep is therefore parametrised by a
  pop function of type List Pixel -> Pixel.  A pop function is faithful to
  Python when it returns a member of a nonempty list (ValidPick below);
  theorems quantify over the pop function where the property is
  pop-independent, and instantiate it where a concrete run is evaluated;
* millimetre arithmetic is modelled with rationals; Python's round (banker's
  rounding, round half to even) is modelled exactly by rhe below;
* numpy.hypot distance comparisons are modelled by comparisons of squared
  integer distances: hypot(dx, dy) = sqrt(dx^2 + dy^2) is strictly monotone
  in dx^2 + dy^2, so every < comparison of the Python code has the same truth
  value as the corresponding < comparison of squared distances;
* the four kinds of emitted G-code strings are modelled as the four
  constructors of an inductive type (GLine), one per literal format.
-/

namespace DrawingMachine

/-- A pixel coordinate (x, y), image space, y increasing downward. -/
abbrev Pixel := ℤ × ℤ

/-- The 8 neighbour offsets (dc, dr), in the order generated by the source's
nested loops for dr in [-1,0,1]: for dc in [-1,0,1], skipping the centre;
an offset is applied as (x + dc, y + dr). -/
def offs8 : List Pixel :=
  [(-1,-1),(0,-1),(1,-1),(-1,0),(1,0),(-1,1),(0,1),(1,1)]

/-- The 9 offsets of the phase-2 sweep, which does not skip the centre
(the source's second while loop iterates all of dr, dc including (0,0)). -/
def offs9 : List Pixel :=
  [(-1,-1),(0,-1),(1,-1),(-1,0),(0,0),(1,0),(-1,1),(0,1),(1,1)]

/-- Offset application: p + d componentwise. -/
def padd (p d : Pixel) : Pixel := (p.1 + d.1, p.2 + d.2)

/-- 8-adjacency of two pixels: q is p plus one of the 8 neighbour offsets. -/
def Adj (p q : Pixel) : Prop := ∃ d ∈ offs8, q = padd p d

instance (p q : Pixel) : Decidable (Adj p q) := by
  unfold Adj; infer_instance

/-- The foreground pixels of the skeleton in the source's enumeration order:
np.argwhere lists (row, col) in row-major order and the code flips to (x, y). -/
def pixelList (w h : ℕ) (grid : ℕ → ℕ → Bool) : List Pixel :=
  (List.range h).flatMap (fun y =>
    (List.range w).filterMap (fun x =>
      if grid x y then some ((x : ℤ), (y : ℤ)) else none))

/-- The convolution value at p of the kernel [[1,1,1],[1,10,1],[1,1,1]] over
the 0/1 mask: 10 for the centre if foreground, plus the number of foreground
8-neighbours (mode='constant', cval=0 makes out-of-bounds count as absent,
which the membership test gives for free). -/
def nbrVal (S : List Pixel) (p : Pixel) : ℕ :=
  (if p ∈ S then 10 else 0) + offs8.countP (fun d => decide (padd p d ∈ S))

/-- Phase-1 extension step: the first offs8 neighbour of last that is
foreground and differs from the predecessor (the source's inner double loop
with its break). -/
def findNext (S : List Pixel) (prev last : Pixel) : Option Pixel :=
  (offs8.find? (fun d => decide (padd last d ∈ S ∧ padd last d ≠ prev))).map (padd last)

/-- Phase-1 path extension: while the tail has convolution value 12
(foreground with exactly 2 neighbours), append the unique next pixel and mark
the edge visited in both directions.  racc is the path so far, reversed;
V is the visited set (a list of directed pixel pairs).  Fuel makes the while
loop structurally terminating; callers pass enough fuel. -/
def traceFrom (S : List Pixel) :
    ℕ → List (Pixel × Pixel) → Pixel → Pixel → List Pixel →
    List Pixel × List (Pixel × Pixel)
  | 0, V, _, _, racc => (racc.reverse, V)
  | fuel + 1, V, prev, last, racc =>
    if nbrVal S last = 12 then
      match findNext S prev last with
      | some nxt => traceFrom S fuel ((last, nxt) :: (nxt, last) :: V) last nxt (nxt :: racc)
      | none => (racc.reverse, V)
    else (racc.reverse, V)

/-- Phase-1 direction loop at an anchor pixel p: for each of the 8 offsets in
order, if the neighbour is foreground and the directed edge (p, neighbour) is
unvisited, trace a new stroke starting [p, neighbour]. -/
def dirsLoop (S : List Pixel) (fuel : ℕ) (p : Pixel) :
    List Pixel → List (List Pixel) × List (Pixel × Pixel) →
    List (List Pixel) × List (Pixel × Pixel)
  | [], acc => acc
  | d :: ds, (strokes, V) =>
    let n := padd p d
    if n ∈ S ∧ (p, n) ∉ V then
      let t := traceFrom S fuel ((p, n) :: (n, p) :: V) p n [n, p]
      dirsLoop S fuel p ds (strokes ++ [t.1], t.2)
    else
      dirsLoop S fuel p ds (strokes, V)

/-- Phase 1: scan the pixels in enumeration order; a pixel whose convolution
value is neither 12 nor 11 (so neither an interior point with 2 neighbours nor
a point with exactly 1 neighbour) starts traces in all unvisited directions.
The source's check "if p_start in visited: continue" compares a pixel against
a set of pixel pairs and is therefore never true; it is omitted. -/
def phase1 (S : List Pixel) (fuel : ℕ) :
    List Pixel → List (List Pixel) × List (Pixel × Pixel) →
    List (List Pixel) × List (Pixel × Pixel)
  | [], acc => acc
  | p :: ps, acc =>
    if nbrVal S p ≠ 12 ∧ nbrVal S p ≠ 11 then
      phase1 S fuel ps (dirsLoop S fuel p offs8 acc)
    else
      phase1 S fuel ps acc

/-- Phase-2 inner trace: repeatedly move to the first of the 9 offsets whose
target is still in remaining, removing it as it is consumed.  Returns the
finished path and the new remaining list. -/
def trace2 : ℕ → List Pixel → Pixel → List Pixel → List Pixel × List Pixel
  | 0, rem, _, racc => (racc.reverse, rem)
  | fuel + 1, rem, cur, racc =>
    match offs9.find? (fun d => decide (padd cur d ∈ rem)) with
    | some d => trace2 fuel (rem.erase (padd cur d)) (padd cur d) (padd cur d :: racc)
    | none => (racc.reverse, rem)

/-- Phase 2 (closed-loop sweep): while pixels remain, pop one (the pop order of
Python's set.pop is implementation defined, hence the pick parameter) and trace
from it.  A pick that returns a non-member - which Python's set.pop never
does - stops the sweep. -/
def phase2 (pick : List Pixel → Pixel) : ℕ → List Pixel → List (List Pixel)
  | 0, _ => []
  | fuel + 1, rem =>
    if rem.isEmpty then []
    else
      let p := pick rem
      if p ∈ rem then
        let t := trace2 ((rem.erase p).length + 1) (rem.erase p) p [p]
        t.1 :: phase2 pick fuel t.2
      else []

/-- A pop model is faithful to Python's set.pop when it returns a member of
every nonempty list. -/
def ValidPick (pick : List Pixel → Pixel) : Prop :=
  ∀ rem : List Pixel, rem ≠ [] → pick rem ∈ rem

/-- The pop model used for concrete runs: the first remaining pixel in
enumeration order. -/
def pickHead (rem : List Pixel) : Pixel := rem.headI

/-- The strokes produced by phase 1 on a mask (the source's strokes list just
before the closed-loop sweep). -/
def phase1Strokes (w h : ℕ) (grid : ℕ → ℕ → Bool) : List (List Pixel) :=
  (phase1 (pixelList w h grid) (8 * (pixelList w h grid).length + 8)
    (pixelList w h grid) ([], [])).1

/-- The pixels remaining for the phase-2 sweep: foreground pixels contained in
no phase-1 stroke (pixel_set - {p for s in strokes for p in s}). -/
def phase2rem (w h : ℕ) (grid : ℕ → ℕ → Bool) : List Pixel :=
  (pixelList w h grid).filter (fun p => decide (p ∉ (phase1Strokes w h grid).flatten))

/-- StrokeProcessor._extract_strokes: the empty-mask early return, phase 1
from the anchors, then the phase-2 sweep over the pixels not contained in any
phase-1 stroke. -/
def extractStrokes (pick : List Pixel → Pixel) (w h : ℕ) (grid : ℕ → ℕ → Bool) :
    List (List Pixel) :=
  if (pixelList w h grid).isEmpty then []
  else
    phase1Strokes w h grid ++
      phase2 pick ((phase2rem w h grid).length + 1) (phase2rem w h grid)

/-- Python's round on a float: round half to even.  Modelled exactly on
rationals: take the floor; round the fractional part, sending exactly 1/2 to
the even neighbour. -/
def rhe (q : ℚ) : ℤ :=
  if q - ⌊q⌋ < 1 / 2 then ⌊q⌋
  else if 1 / 2 < q - ⌊q⌋ then ⌊q⌋ + 1
  else if Even ⌊q⌋ then ⌊q⌋ else ⌊q⌋ + 1

/-- Per-axis calibration data, supplied externally (calibration.yaml):
mm-to-steps slope and intercept, and the physical travel limit in mm. -/
structure CalibAxis where
  slope : ℚ
  intercept : ℚ
  limit : ℚ

/-- conversion_utils.mm_to_steps_X / mm_to_steps_Y: clamp the millimetre value
to [0, physical_limit_mm], then int(round(slope * mm + intercept)). -/
def mmToSteps (c : CalibAxis) (mm : ℚ) : ℤ :=
  rhe (c.slope * max 0 (min mm c.limit) + c.intercept)

/-- The two calibration axes. -/
structure Calib where
  x : CalibAxis
  y : CalibAxis

/-- The geometry held by a StrokeProcessor: plotter dimensions in millimetres
and image dimensions in pixels. -/
structure Plotter where
  plotterW : ℚ
  plotterH : ℚ
  imgW : ℕ
  imgH : ℕ

/-- StrokeProcessor.__init__: scale starts at 0 and is only assigned when both
image dimensions are positive; the branch picks plotter_w / img_w when
img_w / plotter_w > img_h / plotter_h and plotter_h / img_h otherwise. -/
def scaleOf (P : Plotter) : ℚ :=
  if 0 < P.imgW ∧ 0 < P.imgH then
    if (P.imgW : ℚ) / P.plotterW > (P.imgH : ℚ) / P.plotterH then
      P.plotterW / P.imgW
    else
      P.plotterH / P.imgH
  else 0

/-- StrokeProcessor._map_to_plotter_coords: pixel to plotter step coordinates,
with the vertical flip plotter_h - y * scale. -/
def mapToPlotter (cal : Calib) (P : Plotter) (p : Pixel) : ℤ × ℤ :=
  (mmToSteps cal.x (p.1 * scaleOf P),
   mmToSteps cal.y (P.plotterH - p.2 * scaleOf P))

/-- One emitted G-code line.  The constructors model, in order, the literal
strings "G0 Z100.0" (pen up), "G0 Z0.0" (pen down), "G0 X{x} Y{y}" (travel
move) and "G1 X{x} Y{y}" (drawing move). -/
inductive GLine where
  | penUp : GLine
  | penDown : GLine
  | travel : ℤ → ℤ → GLine
  | draw : ℤ → ℤ → GLine
  deriving DecidableEq

/-- Squared Euclidean distance between two step coordinates.  Every distance
comparison of the source compares np.hypot values, and hypot is strictly
monotone in the squared distance, so comparisons of d2 values are faithful. -/
def d2 (a b : ℤ × ℤ) : ℤ := (a.1 - b.1) ^ 2 + (a.2 - b.2) ^ 2

/-- Comparison with the running minimum distance; none models the initial
float('inf'). -/
def ltInf (d : ℤ) : Option ℤ → Bool
  | none => true
  | some v => decide (d < v)

/-- One iteration of the source's selection loop over (index, stroke) pairs:
compare the distance to the stroke's first point, then to its last point,
updating the best index on strict improvement. -/
def selStep (cal : Calib) (P : Plotter) (cur : ℤ × ℤ) (st : ℤ × Option ℤ)
    (is : ℕ × List Pixel) : ℤ × Option ℤ :=
  let ds := d2 (mapToPlotter cal P is.2.headI) cur
  let de := d2 (mapToPlotter cal P is.2.getLastI) cur
  let st1 := if ltInf ds st.2 then ((is.1 : ℤ), some ds) else st
  if ltInf de st1.2 then ((is.1 : ℤ), some de) else st1

/-- The selection fold (the source's for-loop with best_stroke_idx = -1 and
min_dist = inf). -/
def selFold (cal : Calib) (P : Plotter) (cur : ℤ × ℤ) :
    List (ℕ × List Pixel) → ℤ × Option ℤ → ℤ × Option ℤ
  | [], st => st
  | is :: rest, st => selFold cal P cur rest (selStep cal P cur st is)

/-- Index of the stroke with an endpoint closest to the current position. -/
def bestIdx (cal : Calib) (P : Plotter) (cur : ℤ × ℤ)
    (strokes : List (List Pixel)) : ℕ :=
  (selFold cal P cur strokes.enum (-1, none)).1.toNat

/-- The stroke actually emitted for the chosen index: reversed when the mapped
last point is strictly closer to the current position than the mapped first
point. -/
def orientStroke (cal : Calib) (P : Plotter) (cur : ℤ × ℤ)
    (best : List Pixel) : List Pixel :=
  if d2 (mapToPlotter cal P best.getLastI) cur <
      d2 (mapToPlotter cal P best.headI) cur then
    best.reverse
  else best

/-- The G-code block the source emits for one oriented stroke: pen up, travel
to the mapped first point, pen down, then one drawing move per point of the
stroke - the loop "for point in best_stroke" iterates every point, including
the first. -/
def strokeBlock (cal : Calib) (P : Plotter) (s : List Pixel) : List GLine :=
  GLine.penUp ::
    GLine.travel (mapToPlotter cal P s.headI).1 (mapToPlotter cal P s.headI).2 ::
      GLine.penDown ::
        s.map (fun q => GLine.draw (mapToPlotter cal P q).1 (mapToPlotter cal P q).2)

/-- The main optimisation-and-emission loop: while strokes remain, pick the
stroke with the closest endpoint, orient it, emit its block and continue from
its mapped last point.  Fuel is the number of strokes. -/
def gcodeLoop (cal : Calib) (P : Plotter) :
    ℕ → ℤ × ℤ → List (List Pixel) → List GLine
  | 0, _, _ => []
  | fuel + 1, cur, strokes =>
    if strokes.isEmpty then []
    else
      let i := bestIdx cal P cur strokes
      let b := orientStroke cal P cur (strokes.getD i [])
      strokeBlock cal P b ++
        gcodeLoop cal P fuel (mapToPlotter cal P b.getLastI) (strokes.eraseIdx i)

/-- StrokeProcessor._optimize_and_convert_to_gcode: empty input gives an empty
command list; otherwise run the loop from the plotter origin (0, 0). -/
def optimizeAndConvertToGcode (cal : Calib) (P : Plotter)
    (strokes : List (List Pixel)) : List GLine :=
  if strokes.isEmpty then []
  else gcodeLoop cal P strokes.length (0, 0) strokes

/-- StrokeProcessor.convert: extract strokes, then optimise and emit. -/
def convert (pick : List Pixel → Pixel) (cal : Calib) (plotterW plotterH : ℚ)
    (w h : ℕ) (grid : ℕ → ℕ → Bool) : List GLine :=
  optimizeAndConvertToGcode cal ⟨plotterW, plotterH, w, h⟩
    (extractStrokes pick w h grid)

/-- The ordering half of the loop in isolation: the sequence of oriented
strokes in the order the loop emits them (used to state structural theorems
about the loop). -/
def greedyLoop (cal : Calib) (P : Plotter) :
    ℕ → ℤ × ℤ → List (List Pixel) → List (List Pixel)
  | 0, _, _ => []
  | fuel + 1, cur, strokes =>
    if strokes.isEmpty then []
    else
      let i := bestIdx cal P cur strokes
      let b := orientStroke cal P cur (strokes.getD i [])
      b :: greedyLoop cal P fuel (mapToPlotter cal P b.getLastI) (strokes.eraseIdx i)

/-- The optimiser's output order for a stroke list, starting from a given
device position. -/
def greedyOrder (cal : Calib) (P : Plotter) (start : ℤ × ℤ)
    (strokes : List (List Pixel)) : List (List Pixel) :=
  greedyLoop cal P strokes.length start strokes

/-- Modelled from the spec's words for the refinement claim about the
coordinate mapper: uniform scale s = min(deviceWidth_mm / imageWidth_px,
deviceHeight_mm / imageHeight_px); mm_x = px * s; mm_y = deviceHeight_mm -
py * s; steps = round(slope * clamp(mm, 0, physical_limit_mm) + intercept)
per axis.  To be compared with mapToPlotter, which is read off the source. -/
def specMapToPlotter (cal : Calib) (P : Plotter) (p : Pixel) : ℤ × ℤ :=
  let s := min (P.plotterW / P.imgW) (P.plotterH / P.imgH)
  (rhe (cal.x.slope * max 0 (min (p.1 * s) cal.x.limit) + cal.x.intercept),
   rhe (cal.y.slope * max 0 (min (P.plotterH - p.2 * s) cal.y.limit) + cal.y.intercept))

/-- The step value corresponding to the physical travel limit of an axis. -/
def limitSteps (c : CalibAxis) : ℤ := mmToSteps c c.limit

/-- The smaller of the squared distances from cur to the mapped first and
last points of a stroke (the quantity the selection loop minimises). -/
def pairMin (cal : Calib) (P : Plotter) (cur : ℤ × ℤ) (s : List Pixel) : ℤ :=
  min (d2 (mapToPlotter cal P s.headI) cur) (d2 (mapToPlotter cal P s.getLastI) cur)

/-- Euclidean length of one travel leg between two step coordinates. -/
noncomputable def travelLeg (a b : ℤ × ℤ) : ℝ := Real.sqrt ((d2 a b : ℤ) : ℝ)

/-- Total device-space travel between stroke boundaries: from the current
position to the first point of each stroke in turn, the position advancing to
the stroke's last point. -/
noncomputable def travelOf (cal : Calib) (P : Plotter) :
    ℤ × ℤ → List (List Pixel) → ℝ
  | _, [] => 0
  | cur, s :: rest =>
    travelLeg cur (mapToPlotter cal P s.headI) +
      travelOf cal P (mapToPlotter cal P s.getLastI) rest

/-- The normalised (undirected) form of an edge: the lexicographically smaller
endpoint first. -/
def normEdge (a b : Pixel) : Pixel × Pixel :=
  if a.1 < b.1 ∨ (a.1 = b.1 ∧ a.2 ≤ b.2) then (a, b) else (b, a)

/-- The undirected edges traversed by one stroke: its consecutive pairs,
normalised. -/
def strokeEdges (s : List Pixel) : List (Pixel × Pixel) :=
  (s.zip s.tail).map (fun q => normEdge q.1 q.2)

/-- All undirected edges traversed by a stroke list. -/
def allEdges (strokes : List (List Pixel)) : List (Pixel × Pixel) :=
  strokes.flatMap strokeEdges

/-- Concrete mask for the horizontal-line scenario: a 5-pixel line at row 2 of
a 5 x 5 image. -/
def lineGrid : ℕ → ℕ → Bool := fun x y => y == 2 && x < 5

/-- Concrete mask of a 4-pixel diamond loop, the smallest 8-connectivity cycle
in which every foreground pixel has exactly 2 foreground 8-neighbours. -/
def diamondGrid : ℕ → ℕ → Bool := fun x y =>
  (x == 1 && y == 0) || (x == 0 && y == 1) || (x == 2 && y == 1) || (x == 1 && y == 2)

/-- The hypothesis of the closed-loop scenario, made explicit: the foreground
set S carries two mutually inverse successor/predecessor maps under which
every foreground pixel has exactly the two distinct, 8-adjacent foreground
neighbours nxt p and prv p, and any pixel reaches any other by iterating nxt
(a single closed loop in which every foreground pixel has exactly 2
foreground 8-neighbours). -/
structure IsLoop (S : List Pixel) (nxt prv : Pixel → Pixel) : Prop where
  next_mem : ∀ p ∈ S, nxt p ∈ S
  prev_mem : ∀ p ∈ S, prv p ∈ S
  prev_next : ∀ p ∈ S, prv (nxt p) = p
  next_prev : ∀ p ∈ S, nxt (prv p) = p
  next_ne : ∀ p ∈ S, nxt p ≠ p
  next_ne_prev : ∀ p ∈ S, nxt p ≠ prv p
  nbr_iff : ∀ p ∈ S, ∀ d ∈ offs8, (padd p d ∈ S ↔ (padd p d = nxt p ∨ padd p d = prv p))
  next_adj : ∀ p ∈ S, ∃ d ∈ offs8, padd p d = nxt p
  prev_adj : ∀ p ∈ S, ∃ d ∈ offs8, padd p d = prv p
  conn : ∀ p ∈ S, ∀ q ∈ S, ∃ k, k < S.length ∧ nxt^[k] p = q

/-- Clockwise successor map of the 4-pixel diamond loop. -/
def diamondNext : Pixel → Pixel := fun p =>
  if p = (1, 0) then (2, 1)
  else if p = (2, 1) then (1, 2)
  else if p = (1, 2) then (0, 1)
  else if p = (0, 1) then (1, 0)
  else p

/-- Clockwise predecessor map of the 4-pixel diamond loop. -/
def diamondPrev : Pixel → Pixel := fun p =>
  if p = (2, 1) then (1, 0)
  else if p = (1, 2) then (2, 1)
  else if p = (0, 1) then (1, 2)
  else if p = (1, 0) then (0, 1)
  else p

/-- Concrete mask with an isolated pixel at (0,0) and a 3-pixel line at row 3
(5 x 5 image). -/
def c10grid : ℕ → ℕ → Bool := fun x y => (x == 0 && y == 0) || (y == 3 && x < 3)

/-- A calibration with slope 1, intercept 0 and a large travel limit on both
axes (steps equal millimetres). -/
def calUnit : Calib := ⟨⟨1, 0, 1000⟩, ⟨1, 0, 1000⟩⟩

/-- A 100 mm x 100 mm plotter drawing a 100 x 100 pixel image (scale 1). -/
def plotter100 : Plotter := ⟨100, 100, 100, 100⟩

/-- The three single-pixel strokes of the travel-distance counterexample;
under calUnit / plotter100 they map to (0, 4), (2, 1) and (5, 1). -/
def strokesC9 : List (List Pixel) := [[(0, 96)], [(2, 99)], [(5, 99)]]

/-- The visited degree of a pixel p: the number of neighbour offsets whose
target is foreground and whose directed edge from p is in the visited set. -/
def vdeg (S : List Pixel) (V : List (Pixel × Pixel)) (p : Pixel) : ℕ :=
  offs8.countP (fun d => decide (padd p d ∈ S ∧ (p, padd p d) ∈ V))

/-- All directed adjacent foreground pairs of a mask; the visited set always
stays inside this list, which bounds its length by 8 |S|. -/
def dirAdj (S : List Pixel) : List (Pixel × Pixel) :=
  S.flatMap (fun a =>
    offs8.filterMap (fun d => if padd a d ∈ S then some (a, padd a d) else none))

/-- The invariant tying the visited set to the strokes accumulated so far
during phase 1: the visited set is symmetric, consists of adjacent foreground
pairs, has no duplicates, holds a directed pair exactly when the stroke list
traverses that undirected edge, gives every interior pixel (convolution value
12) visited degree 0 or 2, and the stroke list traverses no edge twice. -/
def EdgeInv (S : List Pixel) (strokes : List (List Pixel))
    (V : List (Pixel × Pixel)) : Prop :=
  (∀ a b : Pixel, (a, b) ∈ V → (b, a) ∈ V) ∧
  (∀ ab ∈ V, ab.1 ∈ S ∧ ab.2 ∈ S ∧ Adj ab.1 ab.2) ∧
  V.Nodup ∧
  (∀ a b : Pixel, (a, b) ∈ V ↔ normEdge a b ∈ allEdges strokes) ∧
  (∀ p ∈ S, nbrVal S p = 12 → vdeg S V p = 0 ∨ vdeg S V p = 2) ∧
  (allEdges strokes).Nodup

/-- The invariant of a running phase-1 trace with reversed path
last :: prev :: rroot: the visited set is symmetric, consists of adjacent
foreground pairs without duplicates, holds a pair exactly when the finished
strokes or the running path traverse that edge, gives every interior pixel
other than the tail degree 0 or 2 and the tail itself degree 1, contains the
entry edge of the tail, and the running path's edges are themselves fresh and
duplicate-free. -/
def TraceInv (S : List Pixel) (strokes : List (List Pixel))
    (V : List (Pixel × Pixel)) (prev last : Pixel) (rroot : List Pixel) : Prop :=
  (∀ a b : Pixel, (a, b) ∈ V → (b, a) ∈ V) ∧
  (∀ ab ∈ V, ab.1 ∈ S ∧ ab.2 ∈ S ∧ Adj ab.1 ab.2) ∧
  V.Nodup ∧
  (∀ a b : Pixel, (a, b) ∈ V ↔
    (normEdge a b ∈ allEdges strokes ∨
      normEdge a b ∈ strokeEdges (last :: prev :: rroot))) ∧
  (∀ p ∈ S, p ≠ last → nbrVal S p = 12 → vdeg S V p = 0 ∨ vdeg S V p = 2) ∧
  (nbrVal S last = 12 → vdeg S V last = 1) ∧
  (last, prev) ∈ V ∧
  last ∈ S ∧ prev ∈ S ∧ Adj last prev ∧
  (strokeEdges (last :: prev :: rroot)).Nodup ∧
  (∀ e ∈ strokeEdges (last :: prev :: rroot), e ∉ allEdges strokes) ∧
  (∀ e ∈ strokeEdges (last :: prev :: rroot), e.1 ∈ S ∧ e.2 ∈ S ∧ Adj e.1 e.2) ∧
  (allEdges strokes).Nodup

/-! ### Basic lemmas about rounding and the pixel enumeration -/

theorem rhe_ge_floor (q : ℚ) : ⌊q⌋ ≤ rhe q := by
  unfold rhe
  split_ifs <;> omega

theorem rhe_le_floor_add_one (q : ℚ) : rhe q ≤ ⌊q⌋ + 1 := by
  unfold rhe
  split_ifs <;> omega

theorem rhe_nonneg {q : ℚ} (h : 0 ≤ q) : 0 ≤ rhe q := by
  have h1 : (0 : ℤ) ≤ ⌊q⌋ := by exact_mod_cast Int.le_floor.mpr (by exact_mod_cast h)
  have := rhe_ge_floor q
  omega

theorem rhe_mono {x y : ℚ} (h : x ≤ y) : rhe x ≤ rhe y := by
  rcases lt_or_le ⌊x⌋ ⌊y⌋ with hf | hf
  · have h1 := rhe_le_floor_add_one x
    have h2 := rhe_ge_floor y
    omega
  · have hf2 : ⌊x⌋ ≤ ⌊y⌋ := Int.floor_le_floor h
    have hfe : ⌊x⌋ = ⌊y⌋ := le_antisymm hf2 hf
    have hr : x - ⌊x⌋ ≤ y - ⌊y⌋ := by rw [hfe]; linarith
    unfold rhe
    rw [hfe]
    split_ifs <;> first | omega | linarith

theorem rhe_intCast (n : ℤ) : rhe (n : ℚ) = n := by
  unfold rhe
  have h1 : ⌊(n : ℚ)⌋ = n := Int.floor_intCast n
  rw [h1]
  norm_num

theorem pixelList_of_zero {w h : ℕ} (grid : ℕ → ℕ → Bool) (hz : w = 0 ∨ h = 0) :
    pixelList w h grid = [] := by
  rcases hz with hz | hz <;> subst hz
  · unfold pixelList
    simp
  · unfold pixelList
    simp

/-! ### Claim C7: behaviour on a zero-dimension mask -/

/-- C7 counterexample: the claim says a conversion run on a Mask with a zero
image dimension fails with an InvalidInput error and produces no command
stream.  The source raises nothing on this path: __init__ merely leaves
self.scale at 0, and convert returns normally.  Evaluating the pipeline on a
5 x 0 mask produces the (empty) command stream, so the run does not fail. -/
theorem c7_counterexample :
    convert pickHead calUnit 156 156 5 0 (fun _ _ => true) = ([] : List GLine) ∧
      scaleOf ⟨156, 156, 5, 0⟩ = 0 := by
  constructor
  · rfl
  · rfl

/-- C7 amended: a Mask with image width 0 or image height 0 does not raise any
error; the guard in __init__ leaves the scale at 0 and the conversion run
returns the empty command stream. -/
theorem c7_zero_dim_returns_empty (pick : List Pixel → Pixel) (cal : Calib)
    (pw ph : ℚ) (w h : ℕ) (grid : ℕ → ℕ → Bool) (hz : w = 0 ∨ h = 0) :
    convert pick cal pw ph w h grid = [] ∧ scaleOf ⟨pw, ph, w, h⟩ = 0 := by
  have hS : pixelList w h grid = [] := pixelList_of_zero grid hz
  constructor
  · unfold convert extractStrokes
    rw [hS]
    simp [optimizeAndConvertToGcode]
  · unfold scaleOf
    have : ¬ (0 < w ∧ 0 < h) := by omega
    simp only [this, if_false]

/-- C7 amended witness at the concrete 5 x 0 all-foreground mask. -/
theorem c7_zero_dim_returns_empty_witness :
    ((5 : ℕ) = 0 ∨ (0 : ℕ) = 0) ∧
      (convert pickHead calUnit 156 156 5 0 (fun _ _ => true) = [] ∧
        scaleOf ⟨156, 156, 5, 0⟩ = 0) :=
  ⟨Or.inr rfl,
    c7_zero_dim_returns_empty pickHead calUnit 156 156 5 0 (fun _ _ => true) (Or.inr rfl)⟩

/-! ### Claim C2: the coordinate mapper agrees with the spec formula -/

/-- C2: for positive image and device dimensions, mapping a pixel (px, py)
yields on each axis round(slope * clamp(m, 0, physical_limit_mm) + intercept)
with m_x = px * s and m_y = H_mm - py * s, s = min(W_mm / w, H_mm / h); the
clamp is applied to the millimetre value before the linear transform.  The
source-derived mapToPlotter equals the spec-derived specMapToPlotter. -/
theorem c2_mapper_matches_spec (cal : Calib) (P : Plotter) (p : Pixel)
    (hw : 0 < P.imgW) (hh : 0 < P.imgH) (hW : 0 < P.plotterW) (hH : 0 < P.plotterH) :
    mapToPlotter cal P p = specMapToPlotter cal P p := by
  have hwq : (0 : ℚ) < P.imgW := by exact_mod_cast hw
  have hhq : (0 : ℚ) < P.imgH := by exact_mod_cast hh
  have hscale : scaleOf P = min (P.plotterW / P.imgW) (P.plotterH / P.imgH) := by
    unfold scaleOf
    rw [if_pos ⟨hw, hh⟩]
    by_cases hc : (P.imgW : ℚ) / P.plotterW > (P.imgH : ℚ) / P.plotterH
    · rw [if_pos hc]
      have : P.plotterW / P.imgW ≤ P.plotterH / P.imgH := by
        rw [div_le_div_iff hwq hhq]
        rw [gt_iff_lt, div_lt_div_iff hH hW] at hc
        linarith
      exact (min_eq_left this).symm
    · rw [if_neg hc]
      have hc2 : (P.imgW : ℚ) / P.plotterW ≤ (P.imgH : ℚ) / P.plotterH := not_lt.mp hc
      have : P.plotterH / P.imgH ≤ P.plotterW / P.imgW := by
        rw [div_le_div_iff hhq hwq]
        rw [div_le_div_iff hW hH] at hc2
        linarith
      exact (min_eq_right this).symm
  unfold mapToPlotter specMapToPlotter mmToSteps
  rw [hscale]

/-- C2 witness at a concrete calibration, geometry and pixel. -/
theorem c2_mapper_matches_spec_witness :
    0 < (⟨100, 100, 5, 5⟩ : Plotter).imgW ∧ 0 < (⟨100, 100, 5, 5⟩ : Plotter).imgH ∧
      (0 : ℚ) < (⟨100, 100, 5, 5⟩ : Plotter).plotterW ∧
      (0 : ℚ) < (⟨100, 100, 5, 5⟩ : Plotter).plotterH ∧
      mapToPlotter ⟨⟨3, 7, 50⟩, ⟨2, 1, 80⟩⟩ ⟨100, 100, 5, 5⟩ (3, 1) =
        specMapToPlotter ⟨⟨3, 7, 50⟩, ⟨2, 1, 80⟩⟩ ⟨100, 100, 5, 5⟩ (3, 1) :=
  ⟨by norm_num, by norm_num, by norm_num, by norm_num,
    c2_mapper_matches_spec ⟨⟨3, 7, 50⟩, ⟨2, 1, 80⟩⟩ ⟨100, 100, 5, 5⟩ (3, 1)
      (by norm_num) (by norm_num) (by norm_num) (by norm_num)⟩

/-! ### Claim C8: clamping bounds of the mapped coordinates -/

/-- C8 counterexample: the claim quantifies over every per-axis calibration
and asserts the mapped value lies in [0, physical_limit_steps].  With slope 1,
intercept -5 and limit 156 mm, pixel (0, 0) of a 10 x 10 image maps on the x
axis to -5 steps while physical_limit_steps is 151, so the mapped coordinate
lies outside [0, physical_limit_steps]. -/
theorem c8_counterexample :
    (mapToPlotter ⟨⟨1, -5, 156⟩, ⟨1, -5, 156⟩⟩ ⟨156, 156, 10, 10⟩ (0, 0)).1 = -5 ∧
      limitSteps (⟨1, -5, 156⟩ : CalibAxis) = 151 ∧
      ¬ (0 ≤ (mapToPlotter ⟨⟨1, -5, 156⟩, ⟨1, -5, 156⟩⟩ ⟨156, 156, 10, 10⟩ (0, 0)).1 ∧
          (mapToPlotter ⟨⟨1, -5, 156⟩, ⟨1, -5, 156⟩⟩ ⟨156, 156, 10, 10⟩ (0, 0)).1 ≤
            limitSteps (⟨1, -5, 156⟩ : CalibAxis)) := by
  have h1 : (mapToPlotter ⟨⟨1, -5, 156⟩, ⟨1, -5, 156⟩⟩ ⟨156, 156, 10, 10⟩ (0, 0)).1 = -5 := by
    norm_num [mapToPlotter, mmToSteps, scaleOf, rhe, min_def, max_def]
  have h2 : limitSteps (⟨1, -5, 156⟩ : CalibAxis) = 151 := by
    norm_num [limitSteps, mmToSteps, rhe, min_def, max_def]
  refine ⟨h1, h2, ?_⟩
  intro h
  rw [h1] at h
  omega

theorem mmToSteps_bounds (c : CalibAxis) (hs : 0 ≤ c.slope) (hi : 0 ≤ c.intercept)
    (hl : 0 ≤ c.limit) (mm : ℚ) :
    0 ≤ mmToSteps c mm ∧ mmToSteps c mm ≤ limitSteps c := by
  have hclamp0 : (0 : ℚ) ≤ max 0 (min mm c.limit) := le_max_left 0 _
  have hclampL : max 0 (min mm c.limit) ≤ c.limit :=
    max_le hl (min_le_right mm c.limit)
  constructor
  · apply rhe_nonneg
    have : 0 ≤ c.slope * max 0 (min mm c.limit) := mul_nonneg hs hclamp0
    linarith
  · unfold limitSteps mmToSteps
    apply rhe_mono
    have h1 : max 0 (min c.limit c.limit) = c.limit := by
      rw [min_self]
      exact max_eq_right hl
    rw [h1]
    have : c.slope * max 0 (min mm c.limit) ≤ c.slope * c.limit :=
      mul_le_mul_of_nonneg_left hclampL hs
    linarith

/-- C8 amended: for every calibration axis with nonnegative slope, intercept
and physical limit, the mapper is total and the mapped device coordinate lies
within [0, physical_limit_steps] on both axes (the original claim fails for a
negative intercept or slope, which can push the rounded value outside the
interval). -/
theorem c8_mapped_coords_within_bounds (cal : Calib) (P : Plotter) (p : Pixel)
    (hsx : 0 ≤ cal.x.slope) (hix : 0 ≤ cal.x.intercept) (hlx : 0 ≤ cal.x.limit)
    (hsy : 0 ≤ cal.y.slope) (hiy : 0 ≤ cal.y.intercept) (hly : 0 ≤ cal.y.limit) :
    0 ≤ (mapToPlotter cal P p).1 ∧ (mapToPlotter cal P p).1 ≤ limitSteps cal.x ∧
      0 ≤ (mapToPlotter cal P p).2 ∧ (mapToPlotter cal P p).2 ≤ limitSteps cal.y := by
  have hx := mmToSteps_bounds cal.x hsx hix hlx (p.1 * scaleOf P)
  have hy := mmToSteps_bounds cal.y hsy hiy hly (P.plotterH - p.2 * scaleOf P)
  exact ⟨hx.1, hx.2, hy.1, hy.2⟩

/-- C8 amended witness at a concrete calibration and pixel. -/
theorem c8_mapped_coords_within_bounds_witness :
    (0 : ℚ) ≤ (⟨2, 3, 10⟩ : CalibAxis).slope ∧
      0 ≤ (⟨2, 3, 10⟩ : CalibAxis).intercept ∧ (0 : ℚ) ≤ (⟨2, 3, 10⟩ : CalibAxis).limit ∧
      (0 : ℚ) ≤ (⟨1, 0, 5⟩ : CalibAxis).slope ∧
      0 ≤ (⟨1, 0, 5⟩ : CalibAxis).intercept ∧ (0 : ℚ) ≤ (⟨1, 0, 5⟩ : CalibAxis).limit ∧
      (0 ≤ (mapToPlotter ⟨⟨2, 3, 10⟩, ⟨1, 0, 5⟩⟩ ⟨100, 100, 4, 4⟩ (1, 1)).1 ∧
        (mapToPlotter ⟨⟨2, 3, 10⟩, ⟨1, 0, 5⟩⟩ ⟨100, 100, 4, 4⟩ (1, 1)).1 ≤
          limitSteps (⟨2, 3, 10⟩ : CalibAxis) ∧
        0 ≤ (mapToPlotter ⟨⟨2, 3, 10⟩, ⟨1, 0, 5⟩⟩ ⟨100, 100, 4, 4⟩ (1, 1)).2 ∧
        (mapToPlotter ⟨⟨2, 3, 10⟩, ⟨1, 0, 5⟩⟩ ⟨100, 100, 4, 4⟩ (1, 1)).2 ≤
          limitSteps (⟨1, 0, 5⟩ : CalibAxis)) :=
  ⟨by norm_num, by norm_num, by norm_num, by norm_num, by norm_num, by norm_num,
    c8_mapped_coords_within_bounds ⟨⟨2, 3, 10⟩, ⟨1, 0, 5⟩⟩ ⟨100, 100, 4, 4⟩ (1, 1)
      (by norm_num) (by norm_num) (by norm_num) (by norm_num) (by norm_num) (by norm_num)⟩

/-! ### Claim C6: shape of the emitted command stream -/

/-- C6 counterexample: the claim says that for an empty stroke set the emitted
stream consists of the closing sequence (a final PenUp and a MoveTo the device
origin).  The source's _optimize_and_convert_to_gcode returns the empty list
for an empty stroke set - the closing lines are written by the file-saving
caller, outside the conversion - so the stream is empty, not the closing
sequence. -/
theorem c6_counterexample :
    optimizeAndConvertToGcode calUnit plotter100 [] = ([] : List GLine) ∧
      optimizeAndConvertToGcode calUnit plotter100 [] ≠
        [GLine.penUp, GLine.travel 0 0] := by
  constructor
  · rfl
  · intro h
    exact absurd h (by decide)

theorem gcodeLoop_eq_flatMap (cal : Calib) (P : Plotter) :
    ∀ (fuel : ℕ) (cur : ℤ × ℤ) (strokes : List (List Pixel)),
      gcodeLoop cal P fuel cur strokes =
        (greedyLoop cal P fuel cur strokes).flatMap (strokeBlock cal P) := by
  intro fuel
  induction fuel with
  | zero => intro cur strokes; rfl
  | succ n ih =>
    intro cur strokes
    unfold gcodeLoop greedyLoop
    by_cases he : strokes.isEmpty
    · simp [he]
    · simp [he, List.flatMap_cons, ih]

/-- C6 amended: for every stroke list, the emitted command stream is exactly
the concatenation, over the strokes in the optimiser's output order and
orientation, of the block PenUp, MoveTo(mapped first point), PenDown, then one
MoveTo per point of the stroke including its first point (the source's
emission loop iterates every point, so the mapped first point receives a
drawing move right after PenDown); no closing sequence is appended by the
conversion (the caller writes it when saving), and an empty stroke set yields
the empty stream. -/
theorem c6_stream_is_blocks (cal : Calib) (P : Plotter) (strokes : List (List Pixel)) :
    optimizeAndConvertToGcode cal P strokes =
      (greedyOrder cal P (0, 0) strokes).flatMap (strokeBlock cal P) := by
  unfold optimizeAndConvertToGcode greedyOrder
  by_cases he : strokes.isEmpty
  · have : strokes = [] := List.isEmpty_iff.mp he
    subst this
    simp [greedyLoop]
  · rw [if_neg he]
    exact gcodeLoop_eq_flatMap cal P strokes.length (0, 0) strokes

/-! ### Claim C3: the horizontal-line scenario -/

theorem mmToSteps_unit_of_le {L m : ℚ} (h0 : 0 ≤ m) (h100 : m ≤ 100) (hL : 100 ≤ L) :
    mmToSteps ⟨1, 0, L⟩ m = rhe m := by
  unfold mmToSteps
  have h1 : min m L = m := min_eq_left (by linarith)
  simp only [h1]
  have h2 : max 0 m = m := max_eq_right h0
  rw [h2]
  ring_nf

/-- C3: for the Mask with a single horizontal 5-pixel line at row 2 of a 5 x 5
image, extraction returns exactly one open stroke of the 5 pixels (0,2) ...
(4,2) in order, and with device dimensions 100 x 100 mm, slope 1, intercept 0
and physical limits of at least 100 mm, those pixels map to the device
coordinates (0,60), (20,60), (40,60), (60,60), (80,60).  The phase-2 pop
order is modelled by pickHead (first remaining pixel in enumeration order),
matching the extraction of this mask. -/
theorem c3_line_scenario (Lx Ly : ℚ) (hLx : 100 ≤ Lx) (hLy : 100 ≤ Ly) :
    extractStrokes pickHead 5 5 lineGrid = [[(0, 2), (1, 2), (2, 2), (3, 2), (4, 2)]] ∧
      ([(0, 2), (1, 2), (2, 2), (3, 2), (4, 2)] : List Pixel).map
          (mapToPlotter ⟨⟨1, 0, Lx⟩, ⟨1, 0, Ly⟩⟩ ⟨100, 100, 5, 5⟩) =
        [(0, 60), (20, 60), (40, 60), (60, 60), (80, 60)] := by
  constructor
  · decide
  · have hscale : scaleOf ⟨100, 100, 5, 5⟩ = 20 := by
      norm_num [scaleOf]
    have hy : mmToSteps ⟨1, 0, Ly⟩ ((100 : ℚ) - (2 : ℤ) * scaleOf ⟨100, 100, 5, 5⟩) = 60 := by
      rw [hscale]
      norm_num
      rw [mmToSteps_unit_of_le (by norm_num) (by norm_num) hLy]
      norm_num [rhe]
    have hx : ∀ px : ℤ, 0 ≤ px → px ≤ 4 →
        mmToSteps ⟨1, 0, Lx⟩ ((px : ℚ) * scaleOf ⟨100, 100, 5, 5⟩) = px * 20 := by
      intro px h0 h4
      rw [hscale]
      have hc4 : (px : ℚ) ≤ 4 := by exact_mod_cast h4
      have hc0 : (0 : ℚ) ≤ (px : ℚ) := by exact_mod_cast h0
      rw [mmToSteps_unit_of_le (by nlinarith) (by nlinarith) hLx]
      have : ((px : ℚ)) * 20 = ((px * 20 : ℤ) : ℚ) := by push_cast; ring
      rw [this, rhe_intCast]
    simp only [List.map, mapToPlotter]
    have g0 := hx 0 (by norm_num) (by norm_num)
    have g1 := hx 1 (by norm_num) (by norm_num)
    have g2 := hx 2 (by norm_num) (by norm_num)
    have g3 := hx 3 (by norm_num) (by norm_num)
    have g4 := hx 4 (by norm_num) (by norm_num)
    norm_num at g0 g1 g2 g3 g4 hy ⊢
    exact ⟨⟨g0, hy⟩, ⟨g1, hy⟩, ⟨g2, hy⟩, ⟨g3, hy⟩, ⟨g4, hy⟩⟩

/-- C3 witness at the boundary limits Lx = Ly = 100. -/
theorem c3_line_scenario_witness :
    (100 : ℚ) ≤ 100 ∧ (100 : ℚ) ≤ 100 ∧
      (extractStrokes pickHead 5 5 lineGrid = [[(0, 2), (1, 2), (2, 2), (3, 2), (4, 2)]] ∧
        ([(0, 2), (1, 2), (2, 2), (3, 2), (4, 2)] : List Pixel).map
            (mapToPlotter ⟨⟨1, 0, 100⟩, ⟨1, 0, 100⟩⟩ ⟨100, 100, 5, 5⟩) =
          [(0, 60), (20, 60), (40, 60), (60, 60), (80, 60)]) :=
  ⟨le_refl 100, le_refl 100, c3_line_scenario 100 100 (le_refl 100) (le_refl 100)⟩

/-! ### The selection loop: argmin characterisation -/

theorem headI_reverse {α : Type} [Inhabited α] (l : List α) :
    l.reverse.headI = l.getLastI := by
  rw [List.getLastI_eq_getLast?, ← List.head?_reverse]
  cases l.reverse with
  | nil => rfl
  | cons a t => rfl

theorem selStep_none (cal : Calib) (P : Plotter) (cur : ℤ × ℤ) (bi : ℤ)
    (i : ℕ) (s : List Pixel) :
    selStep cal P cur (bi, none) (i, s) = ((i : ℤ), some (pairMin cal P cur s)) := by
  unfold selStep pairMin ltInf
  by_cases h : d2 (mapToPlotter cal P s.getLastI) cur < d2 (mapToPlotter cal P s.headI) cur
  · simp [h, min_eq_right h.le]
  · simp [h, min_eq_left (not_lt.mp h)]

theorem selStep_some (cal : Calib) (P : Plotter) (cur : ℤ × ℤ) (bi : ℤ) (m : ℤ)
    (i : ℕ) (s : List Pixel) :
    selStep cal P cur (bi, some m) (i, s) =
      if pairMin cal P cur s < m then ((i : ℤ), some (pairMin cal P cur s))
      else (bi, some m) := by
  unfold selStep pairMin ltInf
  by_cases h1 : d2 (mapToPlotter cal P s.headI) cur < m
  · by_cases h2 : d2 (mapToPlotter cal P s.getLastI) cur <
        d2 (mapToPlotter cal P s.headI) cur
    · have hm : min (d2 (mapToPlotter cal P s.headI) cur)
          (d2 (mapToPlotter cal P s.getLastI) cur) =
          d2 (mapToPlotter cal P s.getLastI) cur := min_eq_right h2.le
      simp [h1, h2, hm, lt_trans h2 h1]
    · have hm : min (d2 (mapToPlotter cal P s.headI) cur)
          (d2 (mapToPlotter cal P s.getLastI) cur) =
          d2 (mapToPlotter cal P s.headI) cur := min_eq_left (not_lt.mp h2)
      simp [h1, h2, hm]
  · by_cases h2 : d2 (mapToPlotter cal P s.getLastI) cur < m
    · have h2' : d2 (mapToPlotter cal P s.getLastI) cur <
          d2 (mapToPlotter cal P s.headI) cur := lt_of_lt_of_le h2 (not_lt.mp h1)
      have hm : min (d2 (mapToPlotter cal P s.headI) cur)
          (d2 (mapToPlotter cal P s.getLastI) cur) =
          d2 (mapToPlotter cal P s.getLastI) cur := min_eq_right h2'.le
      simp [h1, h2, hm]
    · have hm : ¬ min (d2 (mapToPlotter cal P s.headI) cur)
          (d2 (mapToPlotter cal P s.getLastI) cur) < m := by
        rw [min_lt_iff]
        tauto
      simp [h1, h2, hm]

theorem selFold_from (cal : Calib) (P : Plotter) (cur : ℤ × ℤ) :
    ∀ (l : List (List Pixel)) (n : ℕ) (bi : ℤ) (m : ℤ),
      (selFold cal P cur (l.enumFrom n) (bi, some m) = (bi, some m) ∧
        ∀ k, k < l.length → m ≤ pairMin cal P cur (l.getD k [])) ∨
      (∃ k, k < l.length ∧
        selFold cal P cur (l.enumFrom n) (bi, some m) =
          (((n + k : ℕ) : ℤ), some (pairMin cal P cur (l.getD k []))) ∧
        pairMin cal P cur (l.getD k []) < m ∧
        (∀ j, j < l.length →
          pairMin cal P cur (l.getD k []) ≤ pairMin cal P cur (l.getD j [])) ∧
        (∀ j, j < k →
          pairMin cal P cur (l.getD k []) < pairMin cal P cur (l.getD j []))) := by
  intro l
  induction l with
  | nil =>
    intro n bi m
    left
    exact ⟨rfl, fun k hk => by simp at hk⟩
  | cons s t ih =>
    intro n bi m
    have hstep : List.enumFrom n (s :: t) = (n, s) :: t.enumFrom (n + 1) := rfl
    have hone : selFold cal P cur ((n, s) :: t.enumFrom (n + 1)) (bi, some m) =
        selFold cal P cur (t.enumFrom (n + 1)) (selStep cal P cur (bi, some m) (n, s)) := rfl
    rw [hstep, hone, selStep_some]
    by_cases h : pairMin cal P cur s < m
    · rw [if_pos h]
      rcases ih (n + 1) n (pairMin cal P cur s) with ⟨heq, hall⟩ |
        ⟨k, hk, heq, hlt, hmin, hfirst⟩
      · right
        refine ⟨0, by simp, ?_, by simpa using h, ?_, ?_⟩
        · rw [heq]; simp
        · intro j hj
          cases j with
          | zero => simp
          | succ j0 =>
            simp only [List.getD_cons_succ, List.getD_cons_zero]
            exact hall j0 (by simpa using hj)
        · intro j hj
          omega
      · right
        refine ⟨k + 1, by simpa using hk, ?_, ?_, ?_, ?_⟩
        · rw [heq]
          have : n + 1 + k = n + (k + 1) := by omega
          rw [this]
          simp [List.getD_cons_succ]
        · simp only [List.getD_cons_succ]
          exact lt_trans hlt h
        · intro j hj
          cases j with
          | zero => simpa [List.getD_cons_succ] using hlt.le
          | succ j0 =>
            simp only [List.getD_cons_succ]
            exact hmin j0 (by simpa using hj)
        · intro j hj
          cases j with
          | zero => simpa [List.getD_cons_succ] using hlt
          | succ j0 =>
            simp only [List.getD_cons_succ]
            exact hfirst j0 (by omega)
    · rw [if_neg h]
      rcases ih (n + 1) bi m with ⟨heq, hall⟩ | ⟨k, hk, heq, hlt, hmin, hfirst⟩
      · left
        refine ⟨heq, ?_⟩
        intro k hk
        cases k with
        | zero => simpa using not_lt.mp h
        | succ k0 =>
          simp only [List.getD_cons_succ]
          exact hall k0 (by simpa using hk)
      · right
        refine ⟨k + 1, by simpa using hk, ?_, ?_, ?_, ?_⟩
        · rw [heq]
          have : n + 1 + k = n + (k + 1) := by omega
          rw [this]
          simp [List.getD_cons_succ]
        · simpa [List.getD_cons_succ] using hlt
        · intro j hj
          cases j with
          | zero =>
            simp only [List.getD_cons_succ, List.getD_cons_zero]
            exact le_trans hlt.le (not_lt.mp h)
          | succ j0 =>
            simp only [List.getD_cons_succ]
            exact hmin j0 (by simpa using hj)
        · intro j hj
          cases j with
          | zero =>
            simp only [List.getD_cons_succ, List.getD_cons_zero]
            exact lt_of_lt_of_le hlt (not_lt.mp h)
          | succ j0 =>
            simp only [List.getD_cons_succ]
            exact hfirst j0 (by omega)

theorem bestIdx_spec (cal : Calib) (P : Plotter) (cur : ℤ × ℤ)
    (strokes : List (List Pixel)) (h : strokes ≠ []) :
    bestIdx cal P cur strokes < strokes.length ∧
      (∀ j, j < strokes.length →
        pairMin cal P cur (strokes.getD (bestIdx cal P cur strokes) []) ≤
          pairMin cal P cur (strokes.getD j [])) ∧
      (∀ j, j < bestIdx cal P cur strokes →
        pairMin cal P cur (strokes.getD (bestIdx cal P cur strokes) []) <
          pairMin cal P cur (strokes.getD j [])) := by
  obtain ⟨s, t, rfl⟩ := List.exists_cons_of_ne_nil h
  unfold bestIdx
  have henum : (s :: t).enum = (0, s) :: t.enumFrom 1 := rfl
  have hone : selFold cal P cur ((0, s) :: t.enumFrom 1) (-1, none) =
      selFold cal P cur (t.enumFrom 1) (selStep cal P cur (-1, none) (0, s)) := rfl
  rw [henum, hone, selStep_none]
  simp only [Nat.cast_zero]
  rcases selFold_from cal P cur t 1 0 (pairMin cal P cur s) with ⟨heq, hall⟩ |
    ⟨k, hk, heq, hlt, hmin, hfirst⟩
  · rw [heq]
    refine ⟨by simp, ?_, ?_⟩
    · intro j hj
      cases j with
      | zero => simp
      | succ j0 =>
        simp only [Int.toNat_natCast, List.getD_cons_succ, List.getD_cons_zero]
        show pairMin cal P cur s ≤ pairMin cal P cur (t.getD j0 [])
        exact hall j0 (by simpa using hj)
    · intro j hj
      simp at hj
  · rw [heq]
    have htn : ((((1 + k : ℕ)) : ℤ)).toNat = k + 1 := by
      rw [Int.toNat_natCast]
      omega
    rw [htn]
    refine ⟨by simp; omega, ?_, ?_⟩
    · intro j hj
      cases j with
      | zero =>
        simp only [List.getD_cons_succ, List.getD_cons_zero]
        exact hlt.le
      | succ j0 =>
        simp only [List.getD_cons_succ]
        exact hmin j0 (by simpa using hj)
    · intro j hj
      cases j with
      | zero =>
        simp only [List.getD_cons_succ, List.getD_cons_zero]
        exact hlt
      | succ j0 =>
        simp only [List.getD_cons_succ]
        exact hfirst j0 (by omega)

/-! ### Claim C5: the greedy selection step -/

/-- C5: for every nonempty stroke list and current position, the selection
loop picks the stroke whose nearer endpoint (pairMin, the smaller of the two
squared distances, which orders exactly as the Euclidean distances do) is
globally smallest; ties go to the earliest-enumerated stroke (strict
inequality against all earlier strokes) and, within a stroke, to the start
endpoint (the stroke is reversed only when its last point is strictly
closer); the emitted stroke is the oriented one and the loop continues from
its mapped last point. -/
theorem c5_greedy_selection (cal : Calib) (P : Plotter) (cur : ℤ × ℤ)
    (strokes : List (List Pixel)) (h : strokes ≠ []) :
    bestIdx cal P cur strokes < strokes.length ∧
      (∀ j, j < strokes.length →
        pairMin cal P cur (strokes.getD (bestIdx cal P cur strokes) []) ≤
          pairMin cal P cur (strokes.getD j [])) ∧
      (∀ j, j < bestIdx cal P cur strokes →
        pairMin cal P cur (strokes.getD (bestIdx cal P cur strokes) []) <
          pairMin cal P cur (strokes.getD j [])) ∧
      (d2 (mapToPlotter cal P (strokes.getD (bestIdx cal P cur strokes) []).getLastI) cur <
          d2 (mapToPlotter cal P (strokes.getD (bestIdx cal P cur strokes) []).headI) cur →
        orientStroke cal P cur (strokes.getD (bestIdx cal P cur strokes) []) =
          (strokes.getD (bestIdx cal P cur strokes) []).reverse) ∧
      (¬ d2 (mapToPlotter cal P (strokes.getD (bestIdx cal P cur strokes) []).getLastI) cur <
          d2 (mapToPlotter cal P (strokes.getD (bestIdx cal P cur strokes) []).headI) cur →
        orientStroke cal P cur (strokes.getD (bestIdx cal P cur strokes) []) =
          strokes.getD (bestIdx cal P cur strokes) []) ∧
      greedyOrder cal P cur strokes =
        orientStroke cal P cur (strokes.getD (bestIdx cal P cur strokes) []) ::
          greedyLoop cal P (strokes.length - 1)
            (mapToPlotter cal P
              (orientStroke cal P cur (strokes.getD (bestIdx cal P cur strokes) [])).getLastI)
            (strokes.eraseIdx (bestIdx cal P cur strokes)) := by
  obtain ⟨h1, h2, h3⟩ := bestIdx_spec cal P cur strokes h
  refine ⟨h1, h2, h3, ?_, ?_, ?_⟩
  · intro hc
    unfold orientStroke
    rw [if_pos hc]
  · intro hc
    unfold orientStroke
    rw [if_neg hc]
  · obtain ⟨s, t, rfl⟩ := List.exists_cons_of_ne_nil h
    show greedyLoop cal P (s :: t).length cur (s :: t) = _
    have hl : (s :: t).length = t.length + 1 := rfl
    rw [hl]
    simp only [greedyLoop, List.isEmpty_cons, Bool.false_eq_true, if_false]
    rfl

/-- C5 witness at a concrete two-stroke instance. -/
theorem c5_greedy_selection_witness :
    ([[(2, 99)], [(5, 99)]] : List (List Pixel)) ≠ [] ∧
      (bestIdx calUnit plotter100 (0, 0) [[(2, 99)], [(5, 99)]] <
          ([[(2, 99)], [(5, 99)]] : List (List Pixel)).length ∧
        (∀ j, j < ([[(2, 99)], [(5, 99)]] : List (List Pixel)).length →
          pairMin calUnit plotter100 (0, 0)
              ([[(2, 99)], [(5, 99)]].getD (bestIdx calUnit plotter100 (0, 0) [[(2, 99)], [(5, 99)]]) []) ≤
            pairMin calUnit plotter100 (0, 0) ([[(2, 99)], [(5, 99)]].getD j [])) ∧
        (∀ j, j < bestIdx calUnit plotter100 (0, 0) [[(2, 99)], [(5, 99)]] →
          pairMin calUnit plotter100 (0, 0)
              ([[(2, 99)], [(5, 99)]].getD (bestIdx calUnit plotter100 (0, 0) [[(2, 99)], [(5, 99)]]) []) <
            pairMin calUnit plotter100 (0, 0) ([[(2, 99)], [(5, 99)]].getD j [])) ∧
        (d2 (mapToPlotter calUnit plotter100
              ([[(2, 99)], [(5, 99)]].getD (bestIdx calUnit plotter100 (0, 0) [[(2, 99)], [(5, 99)]]) []).getLastI) (0, 0) <
            d2 (mapToPlotter calUnit plotter100
              ([[(2, 99)], [(5, 99)]].getD (bestIdx calUnit plotter100 (0, 0) [[(2, 99)], [(5, 99)]]) []).headI) (0, 0) →
          orientStroke calUnit plotter100 (0, 0)
              ([[(2, 99)], [(5, 99)]].getD (bestIdx calUnit plotter100 (0, 0) [[(2, 99)], [(5, 99)]]) []) =
            ([[(2, 99)], [(5, 99)]].getD (bestIdx calUnit plotter100 (0, 0) [[(2, 99)], [(5, 99)]]) []).reverse) ∧
        (¬ d2 (mapToPlotter calUnit plotter100
              ([[(2, 99)], [(5, 99)]].getD (bestIdx calUnit plotter100 (0, 0) [[(2, 99)], [(5, 99)]]) []).getLastI) (0, 0) <
            d2 (mapToPlotter calUnit plotter100
              ([[(2, 99)], [(5, 99)]].getD (bestIdx calUnit plotter100 (0, 0) [[(2, 99)], [(5, 99)]]) []).headI) (0, 0) →
          orientStroke calUnit plotter100 (0, 0)
              ([[(2, 99)], [(5, 99)]].getD (bestIdx calUnit plotter100 (0, 0) [[(2, 99)], [(5, 99)]]) []) =
            [[(2, 99)], [(5, 99)]].getD (bestIdx calUnit plotter100 (0, 0) [[(2, 99)], [(5, 99)]]) []) ∧
        greedyOrder calUnit plotter100 (0, 0) [[(2, 99)], [(5, 99)]] =
          orientStroke calUnit plotter100 (0, 0)
              ([[(2, 99)], [(5, 99)]].getD (bestIdx calUnit plotter100 (0, 0) [[(2, 99)], [(5, 99)]]) []) ::
            greedyLoop calUnit plotter100 (([[(2, 99)], [(5, 99)]] : List (List Pixel)).length - 1)
              (mapToPlotter calUnit plotter100
                (orientStroke calUnit plotter100 (0, 0)
                  ([[(2, 99)], [(5, 99)]].getD (bestIdx calUnit plotter100 (0, 0) [[(2, 99)], [(5, 99)]]) [])).getLastI)
              ([[(2, 99)], [(5, 99)]].eraseIdx (bestIdx calUnit plotter100 (0, 0) [[(2, 99)], [(5, 99)]]))) :=
  ⟨by decide,
    c5_greedy_selection calUnit plotter100 (0, 0) [[(2, 99)], [(5, 99)]] (by decide)⟩

/-! ### Claim C9: greedy travel versus original-order travel -/

theorem mapC9a : mapToPlotter calUnit plotter100 (0, 96) = (0, 4) := by
  norm_num [mapToPlotter, mmToSteps, scaleOf, calUnit, plotter100, rhe, min_def, max_def]

theorem mapC9b : mapToPlotter calUnit plotter100 (2, 99) = (2, 1) := by
  norm_num [mapToPlotter, mmToSteps, scaleOf, calUnit, plotter100, rhe, min_def, max_def]

theorem mapC9c : mapToPlotter calUnit plotter100 (5, 99) = (5, 1) := by
  norm_num [mapToPlotter, mmToSteps, scaleOf, calUnit, plotter100, rhe, min_def, max_def]

theorem bestC9a : bestIdx calUnit plotter100 (0 : ℤ × ℤ) [[(0, 96)], [(2, 99)], [(5, 99)]] = 1 := by
  simp [bestIdx, List.enum, List.enumFrom, selFold, selStep, ltInf, mapC9a, mapC9b, mapC9c,
    d2, List.headI, List.getLastI]

theorem bestC9b : bestIdx calUnit plotter100 (2, 1) [[(0, 96)], [(5, 99)]] = 1 := by
  simp [bestIdx, List.enum, List.enumFrom, selFold, selStep, ltInf, mapC9a, mapC9c,
    d2, List.headI, List.getLastI]

theorem bestC9c : bestIdx calUnit plotter100 (5, 1) [[(0, 96)]] = 0 := by
  simp [bestIdx, List.enum, List.enumFrom, selFold, selStep, ltInf, mapC9a,
    d2, List.headI, List.getLastI]

theorem greedyC9 : greedyOrder calUnit plotter100 (0, 0) strokesC9 =
    [[(2, 99)], [(5, 99)], [(0, 96)]] := by
  simp [strokesC9, greedyOrder, greedyLoop, bestC9a, bestC9b, bestC9c, orientStroke,
    mapC9a, mapC9b, mapC9c, d2, List.eraseIdx, List.headI, List.getLastI, List.getD]

theorem travelC9greedy : travelOf calUnit plotter100 (0, 0) [[(2, 99)], [(5, 99)], [(0, 96)]] =
    Real.sqrt 5 + (Real.sqrt 9 + (Real.sqrt 34 + 0)) := by
  simp [travelOf, travelLeg, mapC9a, mapC9b, mapC9c, d2, List.headI, List.getLastI]

theorem travelC9orig : travelOf calUnit plotter100 (0, 0) strokesC9 =
    Real.sqrt 16 + (Real.sqrt 13 + (Real.sqrt 9 + 0)) := by
  simp [strokesC9, travelOf, travelLeg, mapC9a, mapC9b, mapC9c, d2, List.headI, List.getLastI]

/-- C9 counterexample: for the three single-pixel strokes mapping to (0,4),
(2,1), (5,1) and start position (0,0), the greedy order visits (2,1), (5,1),
(0,4) with travel sqrt 5 + 3 + sqrt 34 = 11.07, while the original extraction
order (0,4), (2,1), (5,1) travels 4 + sqrt 13 + 3 = 10.61; the optimizer's
total boundary travel exceeds the original order's, refuting the claimed
non-regression. -/
theorem c9_counterexample :
    ¬ travelOf calUnit plotter100 (0, 0) (greedyOrder calUnit plotter100 (0, 0) strokesC9) ≤
        travelOf calUnit plotter100 (0, 0) strokesC9 := by
  rw [greedyC9, travelC9greedy, travelC9orig]
  push_neg
  have s9 : Real.sqrt 9 = 3 := by
    rw [show (9 : ℝ) = 3 ^ 2 by norm_num, Real.sqrt_sq (by norm_num : (0:ℝ) ≤ 3)]
  have s16 : Real.sqrt 16 = 4 := by
    rw [show (16 : ℝ) = 4 ^ 2 by norm_num, Real.sqrt_sq (by norm_num : (0:ℝ) ≤ 4)]
  have h5 : (2.2 : ℝ) < Real.sqrt 5 := by
    rw [Real.lt_sqrt (by norm_num : (0:ℝ) ≤ 2.2)]
    norm_num
  have h34 : (5.8 : ℝ) < Real.sqrt 34 := by
    rw [Real.lt_sqrt (by norm_num : (0:ℝ) ≤ 5.8)]
    norm_num
  have h13 : Real.sqrt 13 < 3.7 := by
    rw [Real.sqrt_lt' (by norm_num : (0:ℝ) < 3.7)]
    norm_num
  rw [s9, s16]
  linarith

/-- C9 amended: greedy selection is locally optimal - the first travel leg of
the optimizer's output (from the start position to the chosen, possibly
reversed stroke's mapped first point) never exceeds the first travel leg of
the original order; the TOTAL travel can strictly exceed the original order's,
as the counterexample shows. -/
theorem c9_first_leg_le (cal : Calib) (P : Plotter) (start : ℤ × ℤ)
    (strokes : List (List Pixel)) (h : strokes ≠ []) :
    travelLeg start
        (mapToPlotter cal P ((greedyOrder cal P start strokes).headI).headI) ≤
      travelLeg start (mapToPlotter cal P (strokes.headI).headI) := by
  obtain ⟨h1, h2, h3⟩ := bestIdx_spec cal P start strokes h
  have hhead : (greedyOrder cal P start strokes).headI =
      orientStroke cal P start (strokes.getD (bestIdx cal P start strokes) []) := by
    obtain ⟨s, t, rfl⟩ := List.exists_cons_of_ne_nil h
    show (greedyLoop cal P (s :: t).length start (s :: t)).headI = _
    have hl : (s :: t).length = t.length + 1 := rfl
    rw [hl]
    simp only [greedyLoop, List.isEmpty_cons, Bool.false_eq_true, if_false, List.headI]
  rw [hhead]
  have hor : d2 (mapToPlotter cal P
      (orientStroke cal P start (strokes.getD (bestIdx cal P start strokes) [])).headI) start =
      pairMin cal P start (strokes.getD (bestIdx cal P start strokes) []) := by
    unfold orientStroke pairMin
    by_cases hc : d2 (mapToPlotter cal P
        (strokes.getD (bestIdx cal P start strokes) []).getLastI) start <
        d2 (mapToPlotter cal P (strokes.getD (bestIdx cal P start strokes) []).headI) start
    · rw [if_pos hc, headI_reverse]
      exact (min_eq_right hc.le).symm
    · rw [if_neg hc]
      exact (min_eq_left (not_lt.mp hc)).symm
  have hgd0 : strokes.getD 0 [] = strokes.headI := by
    obtain ⟨s, t, rfl⟩ := List.exists_cons_of_ne_nil h
    rfl
  have hle : pairMin cal P start (strokes.getD (bestIdx cal P start strokes) []) ≤
      d2 (mapToPlotter cal P (strokes.headI).headI) start := by
    have h0 := h2 0 (by
      obtain ⟨s, t, rfl⟩ := List.exists_cons_of_ne_nil h
      simp)
    rw [hgd0] at h0
    exact le_trans h0 (min_le_left _ _)
  have hcomm : ∀ a b : ℤ × ℤ, d2 a b = d2 b a := by
    intro a b
    unfold d2
    ring
  unfold travelLeg
  apply Real.sqrt_le_sqrt
  have hfin : d2 start (mapToPlotter cal P
      (orientStroke cal P start (strokes.getD (bestIdx cal P start strokes) [])).headI) ≤
      d2 start (mapToPlotter cal P (strokes.headI).headI) := by
    rw [hcomm start, hcomm start]
    rw [hor]
    exact hle
  exact_mod_cast hfin

/-- C9 amended witness at the concrete three-stroke instance. -/
theorem c9_first_leg_le_witness :
    strokesC9 ≠ [] ∧
      travelLeg (0, 0)
          (mapToPlotter calUnit plotter100
            ((greedyOrder calUnit plotter100 (0, 0) strokesC9).headI).headI) ≤
        travelLeg (0, 0) (mapToPlotter calUnit plotter100 (strokesC9.headI).headI) :=
  ⟨by decide, c9_first_leg_le calUnit plotter100 (0, 0) strokesC9 (by decide)⟩

/-! ### Claim C10: isolated pixels become one-point strokes and a pen touch -/

theorem neg_mem_offs8 : ∀ d ∈ offs8, ((-d.1, -d.2) : Pixel) ∈ offs8 := by decide

theorem offs9_zero_or_offs8 : ∀ d ∈ offs9, d = ((0 : ℤ), (0 : ℤ)) ∨ d ∈ offs8 := by decide

theorem padd_neg_cancel (q d : Pixel) : padd (padd q d) (-d.1, -d.2) = q := by
  unfold padd
  rw [add_neg_cancel_right, add_neg_cancel_right]

theorem padd_zero (q : Pixel) : padd q ((0 : ℤ), (0 : ℤ)) = q := by
  unfold padd
  rw [add_zero, add_zero]

theorem isolated_not_padd {S : List Pixel} {p last : Pixel}
    (hiso : ∀ d ∈ offs8, padd p d ∉ S) (hlast : last ∈ S) {d : Pixel}
    (hd : d ∈ offs8) : padd last d ≠ p := by
  intro hq
  have hnd : ((-d.1, -d.2) : Pixel) ∈ offs8 := neg_mem_offs8 d hd
  have hcan : padd p (-d.1, -d.2) = last := by
    rw [← hq]
    exact padd_neg_cancel last d
  exact hiso _ hnd (hcan ▸ hlast)

theorem isolated_ne_of_nbr {S : List Pixel} {p q : Pixel}
    (hiso : ∀ d ∈ offs8, padd p d ∉ S) {d : Pixel} (hd : d ∈ offs8)
    (hin : padd q d ∈ S) : q ≠ p := by
  intro h
  subst h
  exact hiso d hd hin

theorem findNext_some {S : List Pixel} {prev last nxt : Pixel}
    (h : findNext S prev last = some nxt) :
    ∃ d ∈ offs8, nxt = padd last d ∧ nxt ∈ S ∧ nxt ≠ prev := by
  unfold findNext at h
  cases hfd : offs8.find? (fun d => decide (padd last d ∈ S ∧ padd last d ≠ prev)) with
  | none => rw [hfd] at h; simp at h
  | some d =>
    rw [hfd] at h
    simp only [Option.map, Option.some.injEq] at h
    have hd : d ∈ offs8 := List.mem_of_find?_eq_some hfd
    have hp := List.find?_some hfd
    simp only [decide_eq_true_eq] at hp
    exact ⟨d, hd, h.symm, h ▸ hp.1, h ▸ hp.2⟩

theorem traceFrom_no_isolated {S : List Pixel} {p : Pixel}
    (hiso : ∀ d ∈ offs8, padd p d ∉ S) :
    ∀ (fuel : ℕ) (V : List (Pixel × Pixel)) (prev last : Pixel) (racc : List Pixel),
      last ∈ S → p ∉ racc → p ∉ (traceFrom S fuel V prev last racc).1 := by
  intro fuel
  induction fuel with
  | zero =>
    intro V prev last racc hl hr
    simpa [traceFrom] using hr
  | succ n ih =>
    intro V prev last racc hl hr
    unfold traceFrom
    by_cases h12 : nbrVal S last = 12
    · rw [if_pos h12]
      cases hfn : findNext S prev last with
      | none => simpa using hr
      | some nxt =>
        obtain ⟨d, hd, heq, hS, _⟩ := findNext_some hfn
        apply ih
        · exact hS
        · intro hmem
          rcases List.mem_cons.mp hmem with hc | hc
          · exact (heq ▸ isolated_not_padd hiso hl hd) hc.symm
          · exact hr hc
    · rw [if_neg h12]
      simpa using hr

theorem dirsLoop_no_isolated {S : List Pixel} {p : Pixel}
    (hiso : ∀ d ∈ offs8, padd p d ∉ S) :
    ∀ (ds : List Pixel) (fuel : ℕ) (q : Pixel)
      (acc : List (List Pixel) × List (Pixel × Pixel)),
      q ∈ S → (∀ d ∈ ds, d ∈ offs8) → (∀ s ∈ acc.1, p ∉ s) →
      ∀ s ∈ (dirsLoop S fuel q ds acc).1, p ∉ s := by
  intro ds
  induction ds with
  | nil =>
    intro fuel q acc hq hds hacc s hs
    exact hacc s hs
  | cons d ds ih =>
    intro fuel q acc hq hds hacc s hs
    obtain ⟨strokes, V⟩ := acc
    have hd8 : d ∈ offs8 := hds d (List.mem_cons_self d ds)
    unfold dirsLoop at hs
    by_cases hc : padd q d ∈ S ∧ (q, padd q d) ∉ V
    · rw [if_pos hc] at hs
      refine ih fuel q _ hq (fun x hx => hds x (List.mem_cons_of_mem d hx)) ?_ s hs
      intro s2 hs2
      rcases List.mem_append.mp hs2 with hin | hin
      · exact hacc s2 hin
      · have hone : s2 = (traceFrom S fuel ((q, padd q d) :: (padd q d, q) :: V)
            q (padd q d) [padd q d, q]).1 := by simpa using hin
        rw [hone]
        apply traceFrom_no_isolated hiso
        · exact hc.1
        · intro hmem
          have hq_ne : q ≠ p := isolated_ne_of_nbr hiso hd8 hc.1
          have hn_ne : padd q d ≠ p := isolated_not_padd hiso hq hd8
          rcases List.mem_cons.mp hmem with h1 | h1
          · exact hn_ne h1.symm
          · rcases List.mem_cons.mp h1 with h2 | h2
            · exact hq_ne h2.symm
            · simp at h2
    · rw [if_neg hc] at hs
      exact ih fuel q _ hq (fun x hx => hds x (List.mem_cons_of_mem d hx)) hacc s hs

theorem phase1_no_isolated {S : List Pixel} {p : Pixel}
    (hiso : ∀ d ∈ offs8, padd p d ∉ S) :
    ∀ (ps : List Pixel) (fuel : ℕ) (acc : List (List Pixel) × List (Pixel × Pixel)),
      (∀ x ∈ ps, x ∈ S) → (∀ s ∈ acc.1, p ∉ s) →
      ∀ s ∈ (phase1 S fuel ps acc).1, p ∉ s := by
  intro ps
  induction ps with
  | nil =>
    intro fuel acc hps hacc s hs
    exact hacc s hs
  | cons q qs ih =>
    intro fuel acc hps hacc s hs
    unfold phase1 at hs
    by_cases hc : nbrVal S q ≠ 12 ∧ nbrVal S q ≠ 11
    · rw [if_pos hc] at hs
      refine ih fuel _ (fun x hx => hps x (List.mem_cons_of_mem q hx)) ?_ s hs
      exact dirsLoop_no_isolated hiso offs8 fuel q acc
        (hps q (List.mem_cons_self q qs)) (fun d hd => hd) hacc
    · rw [if_neg hc] at hs
      exact ih fuel _ (fun x hx => hps x (List.mem_cons_of_mem q hx)) hacc s hs

theorem find2_some {rem : List Pixel} {cur : Pixel} {d : Pixel}
    (h : offs9.find? (fun d => decide (padd cur d ∈ rem)) = some d) :
    d ∈ offs9 ∧ padd cur d ∈ rem := by
  refine ⟨List.mem_of_find?_eq_some h, ?_⟩
  have := List.find?_some h
  simpa using this

theorem trace2_iso_inv {S : List Pixel} {p : Pixel}
    (hiso : ∀ d ∈ offs8, padd p d ∉ S) :
    ∀ (fuel : ℕ) (rem : List Pixel) (cur : Pixel) (racc : List Pixel),
      (∀ x ∈ rem, x ∈ S) → rem.Nodup → cur ∈ S → cur ∉ rem →
      ((∀ x ∈ (trace2 fuel rem cur racc).2, x ∈ rem) ∧
        (trace2 fuel rem cur racc).2.Nodup ∧
        (p ∈ rem → p ∈ (trace2 fuel rem cur racc).2)) := by
  intro fuel
  induction fuel with
  | zero =>
    intro rem cur racc hsub hnd hcur hcn
    exact ⟨fun x hx => hx, hnd, fun hp => hp⟩
  | succ n ih =>
    intro rem cur racc hsub hnd hcur hcn
    unfold trace2
    cases hfd : offs9.find? (fun d => decide (padd cur d ∈ rem)) with
    | none => exact ⟨fun x hx => hx, hnd, fun hp => hp⟩
    | some d =>
      obtain ⟨hd9, hdm⟩ := find2_some hfd
      have hne_cur : padd cur d ≠ cur := fun h => hcn (h ▸ hdm)
      have hd8 : d ∈ offs8 := by
        rcases offs9_zero_or_offs8 d hd9 with h0 | h8
        · exact absurd (h0 ▸ padd_zero cur) hne_cur
        · exact h8
      have hnp : padd cur d ≠ p := isolated_not_padd hiso hcur hd8
      have hsub2 : ∀ x ∈ rem.erase (padd cur d), x ∈ S :=
        fun x hx => hsub x (List.erase_subset _ _ hx)
      have hnd2 : (rem.erase (padd cur d)).Nodup := hnd.erase _
      have hcur2 : padd cur d ∈ S := hsub _ hdm
      have hcn2 : padd cur d ∉ rem.erase (padd cur d) := hnd.not_mem_erase
      obtain ⟨ha, hb, hc⟩ := ih (rem.erase (padd cur d)) (padd cur d)
        (padd cur d :: racc) hsub2 hnd2 hcur2 hcn2
      refine ⟨?_, hb, ?_⟩
      · intro x hx
        exact List.erase_subset _ _ (ha x hx)
      · intro hp
        exact hc ((List.mem_erase_of_ne (fun h => hnp h.symm)).mpr hp)

theorem trace2_isolated_stops {S : List Pixel} {p : Pixel}
    (hiso : ∀ d ∈ offs8, padd p d ∉ S) (fuel : ℕ) (rem : List Pixel)
    (hsub : ∀ x ∈ rem, x ∈ S) (hpn : p ∉ rem) :
    trace2 fuel rem p [p] = ([p], rem) := by
  have hfd : offs9.find? (fun d => decide (padd p d ∈ rem)) = none := by
    rw [List.find?_eq_none]
    intro d hd
    simp only [decide_eq_true_eq]
    intro hmem
    rcases offs9_zero_or_offs8 d hd with h0 | h8
    · rw [h0, padd_zero] at hmem
      exact hpn hmem
    · exact hiso d h8 (hsub _ hmem)
  cases fuel with
  | zero => rfl
  | succ n =>
    unfold trace2
    rw [hfd]
    rfl

theorem phase2_isolated_mem {pick : List Pixel → Pixel} {S : List Pixel} {p : Pixel}
    (hvp : ValidPick pick) (hiso : ∀ d ∈ offs8, padd p d ∉ S) :
    ∀ (fuel : ℕ) (rem : List Pixel), (∀ x ∈ rem, x ∈ S) → rem.Nodup → p ∈ rem →
      rem.length < fuel → [p] ∈ phase2 pick fuel rem := by
  intro fuel
  induction fuel with
  | zero =>
    intro rem _ _ _ hlen
    omega
  | succ n ih =>
    intro rem hsub hnd hp hlen
    have hne : rem ≠ [] := fun h => by simp [h] at hp
    have hq := hvp rem hne
    unfold phase2
    rw [if_neg (by simpa [List.isEmpty_iff] using hne), if_pos hq]
    by_cases hqp : pick rem = p
    · rw [hqp]
      have hstop : trace2 ((rem.erase p).length + 1) (rem.erase p) p [p] =
          ([p], rem.erase p) :=
        trace2_isolated_stops hiso _ _ (fun x hx => hsub x (List.erase_subset _ _ hx))
          hnd.not_mem_erase
      rw [hstop]
      exact List.mem_cons_self _ _
    · have hpe : p ∈ rem.erase (pick rem) :=
        (List.mem_erase_of_ne (fun h => hqp h.symm)).mpr hp
      obtain ⟨ha, hb, hc⟩ := trace2_iso_inv hiso ((rem.erase (pick rem)).length + 1)
        (rem.erase (pick rem)) (pick rem) [pick rem]
        (fun x hx => hsub x (List.erase_subset _ _ hx)) (hnd.erase _)
        (hsub _ hq) hnd.not_mem_erase
      apply List.mem_cons_of_mem
      apply ih
      · intro x hx
        exact hsub x (List.erase_subset _ _ (ha x hx))
      · exact hb
      · exact hc hpe
      · have h1 : (trace2 ((rem.erase (pick rem)).length + 1)
            (rem.erase (pick rem)) (pick rem) [pick rem]).2.length ≤
            (rem.erase (pick rem)).length := by
          have hsubl : ∀ x ∈ (trace2 ((rem.erase (pick rem)).length + 1)
              (rem.erase (pick rem)) (pick rem) [pick rem]).2, x ∈ rem.erase (pick rem) := ha
          exact (List.subperm_of_subset hb hsubl).length_le
        have h2 : (rem.erase (pick rem)).length = rem.length - 1 :=
          List.length_erase_of_mem hq
        have h3 : 0 < rem.length := List.length_pos_of_mem hp
        omega

theorem pixelList_nodup (w h : ℕ) (grid : ℕ → ℕ → Bool) :
    (pixelList w h grid).Nodup := by
  unfold pixelList
  rw [List.nodup_flatMap]
  constructor
  · intro y _
    apply List.Nodup.filterMap ?_ (List.nodup_range w)
    intro a a2 b hb hb2
    by_cases hg : grid a y
    · rw [if_pos hg] at hb
      by_cases hg2 : grid a2 y
      · rw [if_pos hg2] at hb2
        simp only [Option.mem_def, Option.some.injEq] at hb hb2
        have hpair : ((a : ℤ), (y : ℤ)) = ((a2 : ℤ), (y : ℤ)) := by rw [hb, ← hb2]
        have hfst := congrArg Prod.fst hpair
        simp only [Prod.fst] at hfst
        exact_mod_cast hfst
      · rw [if_neg hg2] at hb2
        simp at hb2
    · rw [if_neg hg] at hb
      simp at hb
  · have hpl : (List.range h).Pairwise (· < ·) := List.pairwise_lt_range h
    apply hpl.imp
    intro y y2 hlt q hq hq2
    have h1 : q.2 = (y : ℤ) := by
      rcases List.mem_filterMap.mp hq with ⟨x, _, hfx⟩
      by_cases hg : grid x y
      · rw [if_pos hg] at hfx
        simp only [Option.some.injEq] at hfx
        rw [← hfx]
      · rw [if_neg hg] at hfx
        simp at hfx
    have h2 : q.2 = (y2 : ℤ) := by
      rcases List.mem_filterMap.mp hq2 with ⟨x, _, hfx⟩
      by_cases hg : grid x y2
      · rw [if_pos hg] at hfx
        simp only [Option.some.injEq] at hfx
        rw [← hfx]
      · rw [if_neg hg] at hfx
        simp at hfx
    have : (y : ℤ) = (y2 : ℤ) := by rw [← h1, h2]
    have : y = y2 := by exact_mod_cast this
    omega

theorem extract_isolated_mem (pick : List Pixel → Pixel) (w h : ℕ)
    (grid : ℕ → ℕ → Bool) (p : Pixel) (hvp : ValidPick pick)
    (hp : p ∈ pixelList w h grid)
    (hiso : ∀ d ∈ offs8, padd p d ∉ pixelList w h grid) :
    [p] ∈ extractStrokes pick w h grid := by
  unfold extractStrokes
  have hne : ¬ (pixelList w h grid).isEmpty = true := by
    rw [List.isEmpty_iff]
    intro h0
    rw [h0] at hp
    simp at hp
  rw [if_neg hne]
  apply List.mem_append_right
  apply phase2_isolated_mem hvp hiso
  · intro x hx
    exact List.mem_of_mem_filter hx
  · exact (pixelList_nodup w h grid).filter _
  · apply List.mem_filter.mpr
    refine ⟨hp, ?_⟩
    simp only [decide_eq_true_eq]
    intro hfl
    rcases List.mem_flatten.mp hfl with ⟨s, hs, hps⟩
    exact phase1_no_isolated hiso (pixelList w h grid) _ ([], [])
      (fun x hx => hx) (by intro s2 hs2; simp at hs2) s hs hps
  · omega

theorem mem_getD_or_eraseIdx {α : Type} (dflt : α) :
    ∀ (l : List α) (i : ℕ), i < l.length → ∀ x ∈ l,
      x = l.getD i dflt ∨ x ∈ l.eraseIdx i := by
  intro l
  induction l with
  | nil =>
    intro i hi
    simp at hi
  | cons a t ih =>
    intro i hi x hx
    cases i with
    | zero =>
      rcases List.mem_cons.mp hx with h | h
      · left
        simpa using h
      · right
        simpa [List.eraseIdx] using h
    | succ j =>
      rcases List.mem_cons.mp hx with h | h
      · right
        rw [h]
        simp [List.eraseIdx]
      · rcases ih j (by simpa using hi) x h with h2 | h2
        · left
          simpa using h2
        · right
          simp [List.eraseIdx, h2]

theorem greedyLoop_mem_orient (cal : Calib) (P : Plotter) :
    ∀ (fuel : ℕ) (cur : ℤ × ℤ) (strokes : List (List Pixel)),
      strokes.length ≤ fuel → ∀ s ∈ strokes,
      s ∈ greedyLoop cal P fuel cur strokes ∨
        s.reverse ∈ greedyLoop cal P fuel cur strokes := by
  intro fuel
  induction fuel with
  | zero =>
    intro cur strokes hlen s hs
    have : strokes = [] := List.eq_nil_of_length_eq_zero (by omega)
    subst this
    simp at hs
  | succ n ih =>
    intro cur strokes hlen s hs
    have hne : strokes ≠ [] := by
      intro h0
      subst h0
      simp at hs
    obtain ⟨hidx, _, _⟩ := bestIdx_spec cal P cur strokes hne
    have hne2 : ¬ strokes.isEmpty = true := by simpa [List.isEmpty_iff] using hne
    simp only [greedyLoop]
    rw [if_neg hne2]
    rcases mem_getD_or_eraseIdx [] strokes (bestIdx cal P cur strokes) hidx s hs with
      heq | hmem
    · by_cases hc : d2 (mapToPlotter cal P
          (strokes.getD (bestIdx cal P cur strokes) []).getLastI) cur <
          d2 (mapToPlotter cal P (strokes.getD (bestIdx cal P cur strokes) []).headI) cur
      · right
        have ho : orientStroke cal P cur (strokes.getD (bestIdx cal P cur strokes) []) =
            (strokes.getD (bestIdx cal P cur strokes) []).reverse := by
          unfold orientStroke
          rw [if_pos hc]
        rw [ho, ← heq]
        exact List.mem_cons_self _ _
      · left
        have ho : orientStroke cal P cur (strokes.getD (bestIdx cal P cur strokes) []) =
            strokes.getD (bestIdx cal P cur strokes) [] := by
          unfold orientStroke
          rw [if_neg hc]
        rw [ho, ← heq]
        exact List.mem_cons_self _ _
    · have hlen2 : (strokes.eraseIdx (bestIdx cal P cur strokes)).length ≤ n := by
        rw [List.length_eraseIdx]
        simp only [hidx, if_true]
        omega
      rcases ih _ (strokes.eraseIdx (bestIdx cal P cur strokes)) hlen2 s hmem with
        h2 | h2
      · left
        exact List.mem_cons_of_mem _ h2
      · right
        exact List.mem_cons_of_mem _ h2

theorem flatMap_infix_of_mem {α β : Type} (f : α → List β) :
    ∀ (L : List α) (l : α), l ∈ L →
      ∃ l1 l2, L.flatMap f = l1 ++ (f l ++ l2) := by
  intro L
  induction L with
  | nil =>
    intro l h
    simp at h
  | cons a t ih =>
    intro l h
    rcases List.mem_cons.mp h with h1 | h1
    · exact ⟨[], t.flatMap f, by simp [h1]⟩
    · obtain ⟨l1, l2, heq⟩ := ih l h1
      exact ⟨f a ++ l1, l2, by simp [heq]⟩

/-- C10: for every Mask containing an isolated foreground pixel (no
foreground 8-neighbour) and every faithful pop model, extraction emits the
one-point stroke [p] (the pixel is not dropped: phase 1 cannot touch it and
the phase-2 sweep pops it as a single-point path), and the conversion's
command stream contains the contiguous subsequence PenUp, MoveTo(mapped p),
PenDown, MoveTo(mapped p) - a pen touch with no net movement (the drawing
move repeats the travel target). -/
theorem c10_isolated_pixel (pick : List Pixel → Pixel) (cal : Calib) (pw ph : ℚ)
    (w h : ℕ) (grid : ℕ → ℕ → Bool) (p : Pixel) (hvp : ValidPick pick)
    (hp : p ∈ pixelList w h grid)
    (hiso : ∀ d ∈ offs8, padd p d ∉ pixelList w h grid) :
    [p] ∈ extractStrokes pick w h grid ∧
      ∃ l1 l2, convert pick cal pw ph w h grid =
        l1 ++ (GLine.penUp ::
          GLine.travel (mapToPlotter cal ⟨pw, ph, w, h⟩ p).1
            (mapToPlotter cal ⟨pw, ph, w, h⟩ p).2 ::
          GLine.penDown ::
          GLine.draw (mapToPlotter cal ⟨pw, ph, w, h⟩ p).1
            (mapToPlotter cal ⟨pw, ph, w, h⟩ p).2 :: l2) := by
  have hmem := extract_isolated_mem pick w h grid p hvp hp hiso
  refine ⟨hmem, ?_⟩
  unfold convert optimizeAndConvertToGcode
  have hne : ¬ (extractStrokes pick w h grid).isEmpty = true := by
    rw [List.isEmpty_iff]
    intro h0
    rw [h0] at hmem
    simp at hmem
  rw [if_neg hne, gcodeLoop_eq_flatMap]
  have horient := greedyLoop_mem_orient cal ⟨pw, ph, w, h⟩
    (extractStrokes pick w h grid).length (0, 0) (extractStrokes pick w h grid)
    le_rfl [p] hmem
  have hm2 : [p] ∈ greedyLoop cal ⟨pw, ph, w, h⟩
      (extractStrokes pick w h grid).length (0, 0) (extractStrokes pick w h grid) := by
    rcases horient with h1 | h1
    · exact h1
    · simpa using h1
  obtain ⟨l1, l2, heq⟩ := flatMap_infix_of_mem (strokeBlock cal ⟨pw, ph, w, h⟩) _ [p] hm2
  refine ⟨l1, l2, ?_⟩
  rw [heq]
  rfl

theorem validPick_pickHead : ValidPick pickHead := by
  intro rem h
  cases rem with
  | nil => exact absurd rfl h
  | cons a t => exact List.mem_cons_self a t

/-- C10 witness on the concrete mask with an isolated pixel at (0,0). -/
theorem c10_isolated_pixel_witness :
    ValidPick pickHead ∧ ((0, 0) : Pixel) ∈ pixelList 5 5 c10grid ∧
      (∀ d ∈ offs8, padd (0, 0) d ∉ pixelList 5 5 c10grid) ∧
      ([((0 : ℤ), (0 : ℤ))] ∈ extractStrokes pickHead 5 5 c10grid ∧
        ∃ l1 l2, convert pickHead calUnit 156 156 5 5 c10grid =
          l1 ++ (GLine.penUp ::
            GLine.travel (mapToPlotter calUnit ⟨156, 156, 5, 5⟩ (0, 0)).1
              (mapToPlotter calUnit ⟨156, 156, 5, 5⟩ (0, 0)).2 ::
            GLine.penDown ::
            GLine.draw (mapToPlotter calUnit ⟨156, 156, 5, 5⟩ (0, 0)).1
              (mapToPlotter calUnit ⟨156, 156, 5, 5⟩ (0, 0)).2 :: l2)) :=
  ⟨validPick_pickHead, by decide, by decide,
    c10_isolated_pixel pickHead calUnit 156 156 5 5 c10grid (0, 0)
      validPick_pickHead (by decide) (by decide)⟩

/-! ### Claim C4: single closed loops.  Orbit structure of a loop. -/

theorem loop_orbit_mem {S : List Pixel} {nxt prv : Pixel → Pixel}
    (h : IsLoop S nxt prv) {p : Pixel} (hp : p ∈ S) :
    ∀ t, nxt^[t] p ∈ S := by
  intro t
  induction t with
  | zero => exact hp
  | succ m ih =>
    rw [Function.iterate_succ_apply']
    exact h.next_mem _ ih

theorem loop_cancel {S : List Pixel} {nxt prv : Pixel → Pixel}
    (h : IsLoop S nxt prv) {a b : Pixel} (ha : a ∈ S) (hb : b ∈ S)
    (heq : nxt a = nxt b) : a = b := by
  have h1 : prv (nxt a) = a := h.prev_next a ha
  have h2 : prv (nxt b) = b := h.prev_next b hb
  rw [← h1, ← h2, heq]

theorem loop_orbit_sub {S : List Pixel} {nxt prv : Pixel → Pixel}
    (h : IsLoop S nxt prv) {p : Pixel} (hp : p ∈ S) :
    ∀ i j, i ≤ j → nxt^[i] p = nxt^[j] p → p = nxt^[j - i] p := by
  intro i
  induction i with
  | zero =>
    intro j _ heq
    simpa using heq
  | succ m ih =>
    intro j hle heq
    cases j with
    | zero => omega
    | succ j2 =>
      rw [Function.iterate_succ_apply', Function.iterate_succ_apply'] at heq
      have heq2 : nxt^[m] p = nxt^[j2] p :=
        loop_cancel h (loop_orbit_mem h hp m) (loop_orbit_mem h hp j2) heq
      have := ih j2 (by omega) heq2
      simpa using this

theorem loop_period {S : List Pixel} {nxt prv : Pixel → Pixel}
    (h : IsLoop S nxt prv) {p : Pixel} (hp : p ∈ S) {d : ℕ} (hd : 0 < d)
    (hret : nxt^[d] p = p) : ∀ q ∈ S, ∃ t, t < d ∧ nxt^[t] p = q := by
  have hshift : ∀ m t, nxt^[t + d * m] p = nxt^[t] p := by
    intro m
    induction m with
    | zero => intro t; simp
    | succ m2 ih =>
      intro t
      have harr : t + d * (m2 + 1) = (t + d * m2) + d := by ring
      rw [harr, Function.iterate_add_apply, hret]
      exact ih t
  intro q hq
  obtain ⟨k, _, hk⟩ := h.conn p hp q hq
  refine ⟨k % d, Nat.mod_lt k hd, ?_⟩
  have hs2 := hshift (k / d) (k % d)
  rw [Nat.mod_add_div] at hs2
  rw [← hs2]
  exact hk

theorem loop_card_le {S : List Pixel} (hS : S.Nodup) (f : ℕ → Pixel) (d : ℕ)
    (hcov : ∀ q ∈ S, ∃ t, t < d ∧ f t = q) : S.length ≤ d := by
  have hsub : S ⊆ (List.range d).map f := by
    intro q hq
    obtain ⟨t, ht, hft⟩ := hcov q hq
    exact List.mem_map.mpr ⟨t, List.mem_range.mpr ht, hft⟩
  have := (List.subperm_of_subset hS hsub).length_le
  simpa using this

theorem loop_distinct {S : List Pixel} {nxt prv : Pixel → Pixel}
    (h : IsLoop S nxt prv) (hS : S.Nodup) {p : Pixel} (hp : p ∈ S) :
    ∀ i j, i < j → j < S.length → nxt^[i] p ≠ nxt^[j] p := by
  intro i j hij hj heq
  have hsub := loop_orbit_sub h hp i j (by omega) heq
  have hper := loop_period h hp (by omega : 0 < j - i) hsub.symm
  have := loop_card_le hS (fun t => nxt^[t] p) (j - i) hper
  omega

theorem loop_return {S : List Pixel} {nxt prv : Pixel → Pixel}
    (h : IsLoop S nxt prv) (hS : S.Nodup) {p : Pixel} (hp : p ∈ S) :
    nxt^[S.length] p = p := by
  have hmem := loop_orbit_mem h hp S.length
  obtain ⟨t, ht, hteq⟩ := h.conn p hp _ hmem
  cases Nat.eq_zero_or_pos t with
  | inl h0 =>
    rw [h0] at hteq
    simpa using hteq.symm
  | inr hpos =>
    exfalso
    have hsub := loop_orbit_sub h hp t S.length (by omega) hteq
    exact loop_distinct h hS hp 0 (S.length - t) (by omega) (by omega)
      (by simpa using hsub)

theorem loop_prev_iterate {S : List Pixel} {nxt prv : Pixel → Pixel}
    (h : IsLoop S nxt prv) :
    ∀ m, ∀ q ∈ S, prv^[m] (nxt^[m] q) = q := by
  intro m
  induction m with
  | zero => intro q _; simp
  | succ m2 ih =>
    intro q hq
    have e1 : nxt^[m2 + 1] q = nxt (nxt^[m2] q) := Function.iterate_succ_apply' nxt m2 q
    have e2 : ∀ x, prv^[m2 + 1] x = prv^[m2] (prv x) :=
      fun x => Function.iterate_succ_apply prv m2 x
    rw [e1, e2]
    have h1 : prv (nxt (nxt^[m2] q)) = nxt^[m2] q :=
      h.prev_next _ (loop_orbit_mem h hq m2)
    rw [h1]
    exact ih q hq

theorem loop_prev_ne {S : List Pixel} {nxt prv : Pixel → Pixel}
    (h : IsLoop S nxt prv) {p : Pixel} (hp : p ∈ S) : prv p ≠ p := by
  intro heq
  have := h.next_prev p hp
  rw [heq] at this
  exact h.next_ne p hp this

theorem loop_conn_prev {S : List Pixel} {nxt prv : Pixel → Pixel}
    (h : IsLoop S nxt prv) (hS : S.Nodup) :
    ∀ p ∈ S, ∀ q ∈ S, ∃ k, k < S.length ∧ prv^[k] p = q := by
  intro p hp q hq
  obtain ⟨k, hk, hkeq⟩ := h.conn p hp q hq
  cases Nat.eq_zero_or_pos k with
  | inl h0 =>
    refine ⟨0, by omega, ?_⟩
    rw [h0] at hkeq
    simpa using hkeq
  | inr hpos =>
    refine ⟨S.length - k, by omega, ?_⟩
    have hsplit : nxt^[S.length] p = nxt^[S.length - k] (nxt^[k] p) := by
      rw [← Function.iterate_add_apply]
      have : S.length - k + k = S.length := by omega
      rw [this]
    have hret := loop_return h hS hp
    rw [hsplit, hkeq] at hret
    have := loop_prev_iterate h (S.length - k) q hq
    rw [hret] at this
    exact this

theorem IsLoop.symm {S : List Pixel} {nxt prv : Pixel → Pixel}
    (h : IsLoop S nxt prv) (hS : S.Nodup) : IsLoop S prv nxt where
  next_mem := h.prev_mem
  prev_mem := h.next_mem
  prev_next := h.next_prev
  next_prev := h.prev_next
  next_ne := fun p hp => loop_prev_ne h hp
  next_ne_prev := fun p hp => (h.next_ne_prev p hp).symm
  nbr_iff := by
    intro p hp d hd
    rw [h.nbr_iff p hp d hd]
    exact or_comm
  next_adj := h.prev_adj
  prev_adj := h.next_adj
  conn := loop_conn_prev h hS

theorem loop_three_le {S : List Pixel} {nxt prv : Pixel → Pixel}
    (h : IsLoop S nxt prv) {p : Pixel} (hp : p ∈ S) : 3 ≤ S.length := by
  have h1 : nxt p ≠ p := h.next_ne p hp
  have h2 : prv p ≠ p := loop_prev_ne h hp
  have h3 : nxt p ≠ prv p := h.next_ne_prev p hp
  have hnd : ([p, nxt p, prv p] : List Pixel).Nodup := by
    refine List.nodup_cons.mpr ⟨?_, List.nodup_cons.mpr ⟨?_, List.nodup_singleton _⟩⟩
    · intro hmem
      rcases List.mem_cons.mp hmem with hh | hh
      · exact h1 hh.symm
      · rcases List.mem_cons.mp hh with hh2 | hh2
        · exact h2 hh2.symm
        · simp at hh2
    · intro hmem
      rcases List.mem_cons.mp hmem with hh | hh
      · exact h3 hh
      · simp at hh
  have hsub : ([p, nxt p, prv p] : List Pixel) ⊆ S := by
    intro x hx
    rcases List.mem_cons.mp hx with rfl | hx
    · exact hp
    · rcases List.mem_cons.mp hx with rfl | hx
      · exact h.next_mem p hp
      · rcases List.mem_cons.mp hx with rfl | hx
        · exact h.prev_mem p hp
        · simp at hx
  have := (List.subperm_of_subset hnd hsub).length_le
  simpa using this

theorem countP_or_zero {α : Type} [DecidableEq α] (a b : α) :
    ∀ l : List α, a ∉ l → b ∉ l →
      l.countP (fun x => decide (x = a ∨ x = b)) = 0 := by
  intro l
  induction l with
  | nil => intro _ _; rfl
  | cons x t ih =>
    intro ha hb
    have hxa : x ≠ a := fun hh => ha (hh ▸ List.mem_cons_self x t)
    have hxb : x ≠ b := fun hh => hb (hh ▸ List.mem_cons_self x t)
    rw [List.countP_cons_of_neg]
    · exact ih (fun hh => ha (List.mem_cons_of_mem x hh))
        (fun hh => hb (List.mem_cons_of_mem x hh))
    · simp [hxa, hxb]

theorem countP_or_one {α : Type} [DecidableEq α] (a b : α) :
    ∀ l : List α, l.Nodup →
      ((a ∈ l ∧ b ∉ l) ∨ (a ∉ l ∧ b ∈ l)) →
      l.countP (fun x => decide (x = a ∨ x = b)) = 1 := by
  intro l
  induction l with
  | nil =>
    intro _ hc
    rcases hc with ⟨h1, _⟩ | ⟨_, h1⟩ <;> simp at h1
  | cons x t ih =>
    intro hnd hc
    rcases hc with ⟨ha, hb⟩ | ⟨ha, hb⟩
    · rcases List.mem_cons.mp ha with rfl | hat
      · rw [List.countP_cons_of_pos]
        · rw [countP_or_zero a b t (List.nodup_cons.mp hnd).1
            (fun hh => hb (List.mem_cons_of_mem a hh))]
        · simp
      · have hxa : x ≠ a := fun hh => (List.nodup_cons.mp hnd).1 (hh ▸ hat)
        have hxb : x ≠ b := fun hh => hb (hh ▸ List.mem_cons_self x t)
        rw [List.countP_cons_of_neg]
        · exact ih (List.nodup_cons.mp hnd).2
            (Or.inl ⟨hat, fun hh => hb (List.mem_cons_of_mem x hh)⟩)
        · simp [hxa, hxb]
    · rcases List.mem_cons.mp hb with rfl | hbt
      · rw [List.countP_cons_of_pos]
        · rw [countP_or_zero a b t (fun hh => ha (List.mem_cons_of_mem b hh))
            (List.nodup_cons.mp hnd).1]
        · simp
      · have hxa : x ≠ a := fun hh => ha (hh ▸ List.mem_cons_self x t)
        have hxb : x ≠ b := fun hh => (List.nodup_cons.mp hnd).1 (hh ▸ hbt)
        rw [List.countP_cons_of_neg]
        · exact ih (List.nodup_cons.mp hnd).2
            (Or.inr ⟨fun hh => ha (List.mem_cons_of_mem x hh), hbt⟩)
        · simp [hxa, hxb]

theorem countP_or_two {α : Type} [DecidableEq α] (a b : α) (hab : a ≠ b) :
    ∀ l : List α, l.Nodup → a ∈ l → b ∈ l →
      l.countP (fun x => decide (x = a ∨ x = b)) = 2 := by
  intro l
  induction l with
  | nil =>
    intro _ ha
    simp at ha
  | cons x t ih =>
    intro hnd ha hb
    rcases List.mem_cons.mp ha with rfl | hat
    · have hbt : b ∈ t := by
        rcases List.mem_cons.mp hb with hh | hh
        · exact absurd hh.symm hab
        · exact hh
      rw [List.countP_cons_of_pos]
      · rw [countP_or_one a b t (List.nodup_cons.mp hnd).2
          (Or.inr ⟨(List.nodup_cons.mp hnd).1, hbt⟩)]
      · simp
    · rcases List.mem_cons.mp hb with rfl | hbt
      · rw [List.countP_cons_of_pos]
        · rw [countP_or_one a b t (List.nodup_cons.mp hnd).2
            (Or.inl ⟨hat, (List.nodup_cons.mp hnd).1⟩)]
        · simp
      · have hxa : x ≠ a := fun hh => (List.nodup_cons.mp hnd).1 (hh ▸ hat)
        have hxb : x ≠ b := fun hh => (List.nodup_cons.mp hnd).1 (hh ▸ hbt)
        rw [List.countP_cons_of_neg]
        · exact ih (List.nodup_cons.mp hnd).2 hat hbt
        · simp [hxa, hxb]

theorem padd_left_cancel {p e e2 : Pixel} (h : padd p e = padd p e2) : e = e2 := by
  unfold padd at h
  have h1 := congrArg Prod.fst h
  have h2 := congrArg Prod.snd h
  simp only [Prod.fst, Prod.snd] at h1 h2
  have : e.1 = e2.1 := by omega
  have : e.2 = e2.2 := by omega
  exact Prod.ext (by omega) (by omega)

theorem offs8_nodup : offs8.Nodup := by decide

theorem offs8_subset_offs9 : ∀ d ∈ offs8, d ∈ offs9 := by decide

theorem loop_nbrVal {S : List Pixel} {nxt prv : Pixel → Pixel}
    (h : IsLoop S nxt prv) (p : Pixel) (hp : p ∈ S) : nbrVal S p = 12 := by
  unfold nbrVal
  rw [if_pos hp]
  obtain ⟨d1, hd1, hd1e⟩ := h.next_adj p hp
  obtain ⟨d2, hd2, hd2e⟩ := h.prev_adj p hp
  have hne : d1 ≠ d2 := by
    intro he
    exact (h.next_ne_prev p hp) (by rw [← hd1e, he, hd2e])
  have hcong : ∀ d ∈ offs8,
      ((decide (padd p d ∈ S)) = true ↔ (decide (d = d1 ∨ d = d2)) = true) := by
    intro d hd
    simp only [decide_eq_true_eq]
    rw [h.nbr_iff p hp d hd]
    constructor
    · rintro (he | he)
      · left
        exact padd_left_cancel (by rw [he, hd1e])
      · right
        exact padd_left_cancel (by rw [he, hd2e])
    · rintro (rfl | rfl)
      · left
        exact hd1e
      · right
        exact hd2e
  rw [List.countP_congr hcong]
  rw [countP_or_two d1 d2 hne offs8 offs8_nodup hd1 hd2]

theorem phase1_skip_all {S : List Pixel}
    (hval : ∀ p ∈ S, nbrVal S p = 12 ∨ nbrVal S p = 11) :
    ∀ (ps : List Pixel) (fuel : ℕ) (acc : List (List Pixel) × List (Pixel × Pixel)),
      (∀ x ∈ ps, x ∈ S) → phase1 S fuel ps acc = acc := by
  intro ps
  induction ps with
  | nil => intro fuel acc _; rfl
  | cons q qs ih =>
    intro fuel acc hin
    unfold phase1
    have hq := hval q (hin q (List.mem_cons_self q qs))
    have hcond : ¬ (nbrVal S q ≠ 12 ∧ nbrVal S q ≠ 11) := by
      rcases hq with hh | hh <;> simp [hh]
    rw [if_neg hcond]
    exact ih fuel acc (fun x hx => hin x (List.mem_cons_of_mem q hx))

theorem phase2rem_eq_of_phase1_nil (w h : ℕ) (grid : ℕ → ℕ → Bool)
    (hnil : phase1Strokes w h grid = []) :
    phase2rem w h grid = pixelList w h grid := by
  unfold phase2rem
  rw [hnil]
  apply List.filter_eq_self.mpr
  intro a _
  simp

theorem trace2_loop_walk {S : List Pixel} {nxt prv : Pixel → Pixel}
    (h : IsLoop S nxt prv) (hS : S.Nodup) {p0 : Pixel} (hp0 : p0 ∈ S) :
    ∀ (fuel k : ℕ) (rem racc : List Pixel),
      2 ≤ k → k ≤ S.length → S.length - k < fuel →
      (∀ x, x ∈ rem ↔ x ∈ S ∧ ¬ ∃ t, t < k ∧ nxt^[t] p0 = x) → rem.Nodup →
      racc = ((List.range k).map (fun t => nxt^[t] p0)).reverse →
      trace2 fuel rem (nxt^[k - 1] p0) racc =
        ((List.range S.length).map (fun t => nxt^[t] p0), []) := by
  intro fuel
  induction fuel with
  | zero =>
    intro k rem racc _ _ hf _ _ _
    omega
  | succ n ih =>
    intro k rem racc h2 hkn hf hrem hnd hracc
    by_cases hkeq : k = S.length
    · subst hkeq
      have hremnil : rem = [] := by
        rw [List.eq_nil_iff_forall_not_mem]
        intro x hx
        obtain ⟨hxS, hnc⟩ := (hrem x).mp hx
        exact hnc (h.conn p0 hp0 x hxS)
      subst hremnil
      unfold trace2
      have hfind : offs9.find?
          (fun d => decide (padd (nxt^[S.length - 1] p0) d ∈ ([] : List Pixel))) = none := by
        rw [List.find?_eq_none]
        intro d _
        simp
      rw [hfind, hracc, List.reverse_reverse]
    · have hklt : k < S.length := by omega
      have hcurS : nxt^[k - 1] p0 ∈ S := loop_orbit_mem h hp0 (k - 1)
      have hnext_cur : nxt (nxt^[k - 1] p0) = nxt^[k] p0 := by
        have hi := Function.iterate_succ_apply' nxt (k - 1) p0
        rw [show (k - 1).succ = k by omega] at hi
        exact hi.symm
      have hprev_cur : prv (nxt^[k - 1] p0) = nxt^[k - 2] p0 := by
        have hi := Function.iterate_succ_apply' nxt (k - 2) p0
        rw [show (k - 2).succ = k - 1 by omega] at hi
        rw [hi, h.prev_next _ (loop_orbit_mem h hp0 (k - 2))]
      have hcur_cons : ¬ (nxt^[k - 1] p0 ∈ rem) := by
        intro hmem
        obtain ⟨_, hnc⟩ := (hrem _).mp hmem
        exact hnc ⟨k - 1, by omega, rfl⟩
      have horbk_rem : nxt^[k] p0 ∈ rem := by
        rw [hrem]
        refine ⟨loop_orbit_mem h hp0 k, ?_⟩
        rintro ⟨t, ht, hte⟩
        exact loop_distinct h hS hp0 t k ht hklt hte
      have hcand : ∀ d ∈ offs9, padd (nxt^[k - 1] p0) d ∈ rem →
          padd (nxt^[k - 1] p0) d = nxt^[k] p0 := by
        intro d hd hmem
        obtain ⟨hxS, hnc⟩ := (hrem _).mp hmem
        rcases offs9_zero_or_offs8 d hd with h0 | h8
        · exfalso
          rw [h0, padd_zero] at hmem
          exact hcur_cons hmem
        · rcases (h.nbr_iff _ hcurS d h8).mp hxS with he | he
          · rw [he, hnext_cur]
          · exfalso
            rw [he, hprev_cur] at hmem
            obtain ⟨_, hnc2⟩ := (hrem _).mp hmem
            exact hnc2 ⟨k - 2, by omega, rfl⟩
      cases hfind : offs9.find? (fun d => decide (padd (nxt^[k - 1] p0) d ∈ rem)) with
      | none =>
        exfalso
        obtain ⟨d, hd8, hde⟩ := h.next_adj _ hcurS
        have hnone := List.find?_eq_none.mp hfind d (offs8_subset_offs9 d hd8)
        simp only [decide_eq_true_eq] at hnone
        apply hnone
        rw [hde, hnext_cur]
        exact horbk_rem
      | some d0 =>
        obtain ⟨hd9, hd0mem⟩ := find2_some hfind
        have hd0eq : padd (nxt^[k - 1] p0) d0 = nxt^[k] p0 := hcand d0 hd9 hd0mem
        unfold trace2
        rw [hfind]
        simp only [hd0eq]
        have hstep := ih (k + 1) (rem.erase (nxt^[k] p0)) (nxt^[k] p0 :: racc)
          (by omega) (by omega) (by omega) ?_ (hnd.erase _) ?_
        · have hidx : k + 1 - 1 = k := by omega
          rw [hidx] at hstep
          exact hstep
        · intro x
          rw [hnd.mem_erase_iff]
          constructor
          · rintro ⟨hxne, hxrem⟩
            obtain ⟨hxS, hnc⟩ := (hrem x).mp hxrem
            refine ⟨hxS, ?_⟩
            rintro ⟨t, ht, hte⟩
            by_cases htk : t < k
            · exact hnc ⟨t, htk, hte⟩
            · have : t = k := by omega
              subst this
              exact hxne hte.symm
          · rintro ⟨hxS, hnc⟩
            refine ⟨?_, ?_⟩
            · intro hh
              exact hnc ⟨k, by omega, hh.symm⟩
            · rw [hrem x]
              refine ⟨hxS, ?_⟩
              rintro ⟨t, ht, hte⟩
              exact hnc ⟨t, by omega, hte⟩
        · rw [hracc, List.range_succ, List.map_append, List.reverse_append]
          rfl

theorem phase2_nil (pick : List Pixel → Pixel) (fuel : ℕ) :
    phase2 pick fuel [] = [] := by
  cases fuel with
  | zero => rfl
  | succ n => rfl

theorem headI_map_range (f : ℕ → Pixel) (n : ℕ) (hn : 0 < n) :
    ((List.range n).map f).headI = f 0 := by
  cases n with
  | zero => omega
  | succ m =>
    rw [List.range_succ_eq_map]
    rfl

theorem getLastI_map_range (f : ℕ → Pixel) (n : ℕ) (hn : 0 < n) :
    ((List.range n).map f).getLastI = f (n - 1) := by
  cases n with
  | zero => omega
  | succ m =>
    rw [List.range_succ, List.map_append, List.getLastI_eq_getLast?]
    have : (List.range m).map f ++ [m].map f = (List.range m).map f ++ [f m] := rfl
    rw [this, List.getLast?_concat]
    rfl

theorem loop_stroke_props {S : List Pixel} {nxt prv : Pixel → Pixel}
    (h : IsLoop S nxt prv) (hS : S.Nodup) {p0 : Pixel} (hp0 : p0 ∈ S) :
    ((List.range S.length).map (fun t => nxt^[t] p0)).Nodup ∧
      (∀ q, q ∈ (List.range S.length).map (fun t => nxt^[t] p0) ↔ q ∈ S) ∧
      (List.range S.length).map (fun t => nxt^[t] p0) ≠ [] ∧
      ((List.range S.length).map (fun t => nxt^[t] p0)).headI ≠
        ((List.range S.length).map (fun t => nxt^[t] p0)).getLastI := by
  have h3 : 3 ≤ S.length := loop_three_le h hp0
  refine ⟨?_, ?_, ?_, ?_⟩
  · apply List.Nodup.map_on ?_ (List.nodup_range _)
    intro t1 h1 t2 h2 heq
    rcases lt_trichotomy t1 t2 with hlt | heq2 | hlt
    · exact absurd heq (loop_distinct h hS hp0 t1 t2 hlt (List.mem_range.mp h2))
    · exact heq2
    · exact absurd heq.symm (loop_distinct h hS hp0 t2 t1 hlt (List.mem_range.mp h1))
  · intro q
    constructor
    · intro hq
      obtain ⟨t, _, rfl⟩ := List.mem_map.mp hq
      exact loop_orbit_mem h hp0 t
    · intro hq
      obtain ⟨k, hk, hke⟩ := h.conn p0 hp0 q hq
      exact List.mem_map.mpr ⟨k, List.mem_range.mpr hk, hke⟩
  · intro hnil
    have hlen := congrArg List.length hnil
    rw [List.length_map, List.length_range] at hlen
    simp only [List.length_nil] at hlen
    omega
  · rw [headI_map_range _ _ (by omega), getLastI_map_range _ _ (by omega)]
    exact loop_distinct h hS hp0 0 (S.length - 1) (by omega) (by omega)

theorem loop_phase2 {S : List Pixel} {nxt prv : Pixel → Pixel}
    (h : IsLoop S nxt prv) (hS : S.Nodup) (pick : List Pixel → Pixel)
    (hvp : ValidPick pick) (hne : S ≠ []) :
    ∃ s : List Pixel, phase2 pick (S.length + 1) S = [s] ∧ s.Nodup ∧
      (∀ q, q ∈ s ↔ q ∈ S) ∧ s ≠ [] ∧ s.headI ≠ s.getLastI := by
  have hp0 : pick S ∈ S := hvp S hne
  have h3 : 3 ≤ S.length := loop_three_le h hp0
  have hsymm := h.symm hS
  -- the first phase-2 iteration pops p0 := pick S and traces from it
  unfold phase2
  rw [if_neg (by simpa [List.isEmpty_iff] using hne), if_pos hp0]
  -- analyse the first step of trace2 from p0
  have herasesub : ∀ x ∈ S.erase (pick S), x ∈ S := fun x hx => List.erase_subset _ _ hx
  have hlen_erase : (S.erase (pick S)).length = S.length - 1 :=
    List.length_erase_of_mem hp0
  have hnd_erase : (S.erase (pick S)).Nodup := hS.erase _
  have hfuel1 : (S.erase (pick S)).length + 1 = (S.length - 1) + 1 := by rw [hlen_erase]
  have hnext_mem : nxt (pick S) ∈ S.erase (pick S) := by
    rw [hS.mem_erase_iff]
    exact ⟨h.next_ne _ hp0, h.next_mem _ hp0⟩
  have hprev_mem : prv (pick S) ∈ S.erase (pick S) := by
    rw [hS.mem_erase_iff]
    exact ⟨loop_prev_ne h hp0, h.prev_mem _ hp0⟩
  have hcand0 : ∀ d ∈ offs9, padd (pick S) d ∈ S.erase (pick S) →
      (padd (pick S) d = nxt (pick S) ∨ padd (pick S) d = prv (pick S)) := by
    intro d hd hmem
    rcases offs9_zero_or_offs8 d hd with h0 | h8
    · exfalso
      rw [h0, padd_zero] at hmem
      exact hS.not_mem_erase hmem
    · exact (h.nbr_iff _ hp0 d h8).mp (herasesub _ hmem)
  rw [hfuel1]
  -- one unfolding of trace2 at fuel (S.length - 1) + 1
  cases hfind : offs9.find? (fun d => decide (padd (pick S) d ∈ S.erase (pick S))) with
  | none =>
    exfalso
    obtain ⟨d, hd8, hde⟩ := h.next_adj _ hp0
    have hnone := List.find?_eq_none.mp hfind d (offs8_subset_offs9 d hd8)
    simp only [decide_eq_true_eq] at hnone
    exact hnone (hde ▸ hnext_mem)
  | some d0 =>
    obtain ⟨hd9, hd0mem⟩ := find2_some hfind
    have htr : trace2 ((S.length - 1) + 1) (S.erase (pick S)) (pick S) [pick S] =
        trace2 (S.length - 1) ((S.erase (pick S)).erase (padd (pick S) d0))
          (padd (pick S) d0) [padd (pick S) d0, pick S] := by
      have hstep : trace2 ((S.length - 1) + 1) (S.erase (pick S)) (pick S) [pick S] =
          match offs9.find? (fun d => decide (padd (pick S) d ∈ S.erase (pick S))) with
          | some d => trace2 (S.length - 1) ((S.erase (pick S)).erase (padd (pick S) d))
              (padd (pick S) d) (padd (pick S) d :: [pick S])
          | none => ([pick S].reverse, S.erase (pick S)) := rfl
      rw [hstep, hfind]
    rcases hcand0 d0 hd9 hd0mem with hdir | hdir
    · -- the trace walks the nxt orbit
      have hwalk := trace2_loop_walk h hS hp0 (S.length - 1) 2
        ((S.erase (pick S)).erase (padd (pick S) d0)) [padd (pick S) d0, pick S]
        (by omega) (by omega) (by omega) ?_ (hnd_erase.erase _) ?_
      · have hcur2 : nxt^[2 - 1] (pick S) = padd (pick S) d0 := by
          rw [hdir]
          exact Function.iterate_one nxt ▸ rfl
        rw [htr]
        rw [← hcur2] at hwalk ⊢
        rw [hwalk]
        simp only [phase2_nil]
        obtain ⟨hplist, hpmem, hpne, hphl⟩ := loop_stroke_props h hS hp0
        exact ⟨_, rfl, hplist, hpmem, hpne, hphl⟩
      · intro x
        rw [hnd_erase.mem_erase_iff, hS.mem_erase_iff, hdir]
        constructor
        · rintro ⟨hx1, hx2, hx3⟩
          refine ⟨hx3, ?_⟩
          rintro ⟨t, ht, hte⟩
          interval_cases t
          · exact hx2 hte.symm
          · rw [Function.iterate_one] at hte
            exact hx1 hte.symm
        · rintro ⟨hx1, hx2⟩
          refine ⟨?_, ?_, hx1⟩
          · intro hh
            exact hx2 ⟨1, by omega, by rw [Function.iterate_one, hh]⟩
          · intro hh
            exact hx2 ⟨0, by omega, by simpa using hh.symm⟩
      · rw [hdir]
        have : List.range 2 = [0, 1] := rfl
        rw [this]
        simp [Function.iterate_one]
    · -- the trace walks the prv orbit; use the symmetric loop structure
      have hwalk := trace2_loop_walk hsymm hS hp0 (S.length - 1) 2
        ((S.erase (pick S)).erase (padd (pick S) d0)) [padd (pick S) d0, pick S]
        (by omega) (by omega) (by omega) ?_ (hnd_erase.erase _) ?_
      · have hcur2 : prv^[2 - 1] (pick S) = padd (pick S) d0 := by
          rw [hdir]
          exact Function.iterate_one prv ▸ rfl
        rw [htr]
        rw [← hcur2] at hwalk ⊢
        rw [hwalk]
        simp only [phase2_nil]
        obtain ⟨hplist, hpmem, hpne, hphl⟩ := loop_stroke_props hsymm hS hp0
        exact ⟨_, rfl, hplist, hpmem, hpne, hphl⟩
      · intro x
        rw [hnd_erase.mem_erase_iff, hS.mem_erase_iff, hdir]
        constructor
        · rintro ⟨hx1, hx2, hx3⟩
          refine ⟨hx3, ?_⟩
          rintro ⟨t, ht, hte⟩
          interval_cases t
          · exact hx2 hte.symm
          · rw [Function.iterate_one] at hte
            exact hx1 hte.symm
        · rintro ⟨hx1, hx2⟩
          refine ⟨?_, ?_, hx1⟩
          · intro hh
            exact hx2 ⟨1, by omega, by rw [Function.iterate_one, hh]⟩
          · intro hh
            exact hx2 ⟨0, by omega, by simpa using hh.symm⟩
      · rw [hdir]
        have : List.range 2 = [0, 1] := rfl
        rw [this]
        simp [Function.iterate_one]

/-- C4 counterexample: the 4-pixel diamond loop (the smallest mask in which
every foreground pixel has exactly 2 foreground 8-neighbours, forming a
single closed loop) extracts to exactly one stroke whose first and last
points are (1,0) and (2,1) - adjacent but distinct.  The phase-2 sweep pops
the start pixel out of the remaining set before tracing, so it can never be
appended again and the claimed first == last closure never holds. -/
theorem c4_counterexample :
    (∀ p ∈ pixelList 3 3 diamondGrid, nbrVal (pixelList 3 3 diamondGrid) p = 12) ∧
      extractStrokes pickHead 3 3 diamondGrid = [[(1, 0), (0, 1), (1, 2), (2, 1)]] ∧
      ∀ s ∈ extractStrokes pickHead 3 3 diamondGrid, s.headI ≠ s.getLastI := by
  refine ⟨by decide, by decide, by decide⟩

/-- C4 amended: for every Mask forming a single closed loop with no junction
or endpoint pixels (IsLoop: every foreground pixel has exactly the two
distinct 8-adjacent foreground neighbours given by a successor/predecessor
pair, and the loop is connected), and every faithful pop model, extraction
produces exactly ONE stroke which covers every loop pixel exactly once, but
the stroke is OPEN: its first and last points are distinct (the claimed
equality of first and last point does not hold - the closing edge is never
re-appended because the start pixel is removed from the remaining set when
popped). -/
theorem c4_loop_single_open_stroke (pick : List Pixel → Pixel) (w h : ℕ)
    (grid : ℕ → ℕ → Bool) (nxt prv : Pixel → Pixel) (hvp : ValidPick pick)
    (hloop : IsLoop (pixelList w h grid) nxt prv) (hne : pixelList w h grid ≠ []) :
    ∃ s, extractStrokes pick w h grid = [s] ∧ s.Nodup ∧
      (∀ q, q ∈ s ↔ q ∈ pixelList w h grid) ∧ s ≠ [] ∧ s.headI ≠ s.getLastI := by
  have hnil : phase1Strokes w h grid = [] := by
    unfold phase1Strokes
    rw [phase1_skip_all (fun p hp => Or.inl (loop_nbrVal hloop p hp)) _ _ _
      (fun x hx => hx)]
  have hrem := phase2rem_eq_of_phase1_nil w h grid hnil
  unfold extractStrokes
  rw [if_neg (by simpa [List.isEmpty_iff] using hne), hnil, hrem]
  simp only [List.nil_append]
  exact loop_phase2 hloop (pixelList_nodup w h grid) pick hvp hne

/-- C4 amended witness on the diamond loop. -/
theorem c4_loop_single_open_stroke_witness :
    ValidPick pickHead ∧
      IsLoop (pixelList 3 3 diamondGrid) diamondNext diamondPrev ∧
      pixelList 3 3 diamondGrid ≠ [] ∧
      (∃ s, extractStrokes pickHead 3 3 diamondGrid = [s] ∧ s.Nodup ∧
        (∀ q, q ∈ s ↔ q ∈ pixelList 3 3 diamondGrid) ∧ s ≠ [] ∧
        s.headI ≠ s.getLastI) := by
  have hD : IsLoop (pixelList 3 3 diamondGrid) diamondNext diamondPrev :=
    ⟨by decide, by decide, by decide, by decide, by decide, by decide, by decide,
      by decide, by decide, by decide⟩
  exact ⟨validPick_pickHead, hD, by decide,
    c4_loop_single_open_stroke pickHead 3 3 diamondGrid diamondNext diamondPrev
      validPick_pickHead hD (by decide)⟩

/-! ### Undirected edges of strokes: basic lemmas -/

theorem normEdge_comm (a b : Pixel) : normEdge a b = normEdge b a := by
  obtain ⟨a1, a2⟩ := a
  obtain ⟨b1, b2⟩ := b
  unfold normEdge
  dsimp only
  split_ifs with h1 h2 h2 <;> simp only [Prod.mk.injEq] <;> omega

theorem normEdge_endpoints (a b : Pixel) :
    ((normEdge a b).1 = a ∧ (normEdge a b).2 = b) ∨
      ((normEdge a b).1 = b ∧ (normEdge a b).2 = a) := by
  unfold normEdge
  split_ifs <;> simp

theorem normEdge_eq_imp {a b c d : Pixel} (h : normEdge a b = normEdge c d) :
    (a = c ∧ b = d) ∨ (a = d ∧ b = c) := by
  unfold normEdge at h
  split_ifs at h <;> simp only [Prod.mk.injEq] at h <;> tauto

theorem strokeEdges_nil : strokeEdges ([] : List Pixel) = [] := rfl

theorem strokeEdges_single (a : Pixel) : strokeEdges [a] = [] := rfl

theorem strokeEdges_cons2 (a b : Pixel) (t : List Pixel) :
    strokeEdges (a :: b :: t) = normEdge a b :: strokeEdges (b :: t) := rfl

theorem strokeEdges_endpoint_mem (s : List Pixel) :
    ∀ e ∈ strokeEdges s, e.1 ∈ s ∧ e.2 ∈ s := by
  induction s with
  | nil => intro e he; simp [strokeEdges_nil] at he
  | cons a t ih =>
    cases t with
    | nil => intro e he; simp [strokeEdges_single] at he
    | cons b t2 =>
      intro e he
      rw [strokeEdges_cons2] at he
      rcases List.mem_cons.mp he with h | h
      · subst h
        rcases normEdge_endpoints a b with ⟨h1, h2⟩ | ⟨h1, h2⟩ <;> rw [h1, h2]
        · exact ⟨List.mem_cons_self a _, List.mem_cons_of_mem a (List.mem_cons_self b _)⟩
        · exact ⟨List.mem_cons_of_mem a (List.mem_cons_self b _), List.mem_cons_self a _⟩
      · obtain ⟨h1, h2⟩ := ih e h
        exact ⟨List.mem_cons_of_mem a h1, List.mem_cons_of_mem a h2⟩

theorem strokeEdges_nodup (s : List Pixel) (hs : s.Nodup) : (strokeEdges s).Nodup := by
  induction s with
  | nil => simp [strokeEdges_nil]
  | cons a t ih =>
    cases t with
    | nil => simp [strokeEdges_single]
    | cons b t2 =>
      rw [strokeEdges_cons2]
      refine List.nodup_cons.mpr ⟨?_, ih (List.nodup_cons.mp hs).2⟩
      intro hmem
      obtain ⟨h1, h2⟩ := strokeEdges_endpoint_mem (b :: t2) _ hmem
      have ha : a ∉ b :: t2 := (List.nodup_cons.mp hs).1
      rcases normEdge_endpoints a b with ⟨g1, g2⟩ | ⟨g1, g2⟩
      · rw [g1] at h1; exact ha h1
      · rw [g2] at h2; exact ha h2

theorem strokeEdges_append_single (s : List Pixel) (x : Pixel) :
    strokeEdges (s ++ [x]) =
      strokeEdges s ++ s.getLast?.elim [] (fun b => [normEdge b x]) := by
  induction s with
  | nil => rfl
  | cons a t ih =>
    cases t with
    | nil => rfl
    | cons b t2 =>
      show strokeEdges (a :: ((b :: t2) ++ [x])) = _
      have h1 : (b :: t2) ++ [x] = b :: (t2 ++ [x]) := rfl
      rw [h1, strokeEdges_cons2, ← h1, ih, strokeEdges_cons2]
      simp [List.getLast?_cons_cons]

theorem strokeEdges_reverse (s : List Pixel) :
    strokeEdges s.reverse = (strokeEdges s).reverse := by
  induction s with
  | nil => rfl
  | cons a t ih =>
    rw [List.reverse_cons, strokeEdges_append_single, ih, List.getLast?_reverse]
    cases t with
    | nil => rfl
    | cons b t2 =>
      rw [strokeEdges_cons2, List.reverse_cons]
      simp [normEdge_comm b a]

theorem mem_strokeEdges {s : List Pixel} {e : Pixel × Pixel} (h : e ∈ strokeEdges s) :
    ∃ a b, e = normEdge a b ∧ (a, b) ∈ s.zip s.tail := by
  unfold strokeEdges at h
  obtain ⟨⟨a, b⟩, hmem, heq⟩ := List.mem_map.mp h
  exact ⟨a, b, heq.symm, hmem⟩

theorem allEdges_nil : allEdges [] = [] := rfl

theorem allEdges_append (l1 l2 : List (List Pixel)) :
    allEdges (l1 ++ l2) = allEdges l1 ++ allEdges l2 :=
  List.flatMap_append l1 l2 strokeEdges

theorem allEdges_cons (s : List Pixel) (rest : List (List Pixel)) :
    allEdges (s :: rest) = strokeEdges s ++ allEdges rest := rfl

theorem mem_allEdges_endpoint {strokes : List (List Pixel)} {e : Pixel × Pixel}
    (h : e ∈ allEdges strokes) : ∃ s ∈ strokes, e.1 ∈ s ∧ e.2 ∈ s := by
  obtain ⟨s, hs, he⟩ := List.mem_flatMap.mp h
  exact ⟨s, hs, strokeEdges_endpoint_mem s e he⟩

/-! ### Counting lemmas used by the visited-degree bookkeeping -/

theorem countP_eq_single {α : Type} [DecidableEq α] (a : α) (l : List α)
    (hl : l.Nodup) (ha : a ∈ l) : l.countP (fun x => decide (x = a)) = 1 := by
  induction l with
  | nil => cases ha
  | cons x t ih =>
    rw [List.countP_cons]
    obtain ⟨hx, ht⟩ := List.nodup_cons.mp hl
    rcases List.mem_cons.mp ha with h | h
    · subst h
      have h0 : t.countP (fun y => decide (y = a)) = 0 := by
        apply List.countP_eq_zero.mpr
        intro y hy
        simp only [decide_eq_true_eq]
        rintro rfl
        exact hx hy
      simp [h0]
    · have hax : ¬ (x = a) := fun hh => hx (hh ▸ h)
      rw [ih ht h]
      simp [hax]

theorem countP_two_le {α : Type} (p : α → Bool) (l : List α) (a b : α)
    (hl : l.Nodup) (ha : a ∈ l) (hb : b ∈ l) (hab : a ≠ b)
    (hpa : p a = true) (hpb : p b = true) : 2 ≤ l.countP p := by
  induction l with
  | nil => cases ha
  | cons x t ih =>
    obtain ⟨hx, ht⟩ := List.nodup_cons.mp hl
    rw [List.countP_cons]
    rcases List.mem_cons.mp ha with h1 | h1
    · have hbt : b ∈ t := by
        rcases List.mem_cons.mp hb with h | h
        · exact absurd (h1.trans h.symm) hab
        · exact h
      have hbp : 0 < t.countP p := List.countP_pos_iff.mpr ⟨b, hbt, hpb⟩
      rw [← h1, hpa]
      simp only [if_true]
      omega
    · rcases List.mem_cons.mp hb with h2 | h2
      · have hap : 0 < t.countP p := List.countP_pos_iff.mpr ⟨a, h1, hpa⟩
        rw [← h2, hpb]
        simp only [if_true]
        omega
      · have h3 := ih ht h1 h2
        split_ifs <;> omega

theorem countP_mono_eq_imp {α : Type} (p q : α → Bool) (l : List α)
    (himp : ∀ x ∈ l, p x = true → q x = true)
    (heq : l.countP p = l.countP q) : ∀ x ∈ l, q x = true → p x = true := by
  induction l with
  | nil => intro x hx; cases hx
  | cons a t ih =>
    rw [List.countP_cons, List.countP_cons] at heq
    have hmono : t.countP p ≤ t.countP q :=
      List.countP_mono_left (fun x hx => himp x (List.mem_cons_of_mem a hx))
    intro x hx hqx
    rcases List.mem_cons.mp hx with h | h
    · subst h
      by_contra hpx
      have hpx2 : p x = false := by rwa [Bool.not_eq_true] at hpx
      rw [hpx2, hqx] at heq
      simp only [Bool.false_eq_true, if_false, if_true] at heq
      omega
    · have hcount : t.countP p = t.countP q := by
        by_cases hpa : p a = true
        · have hqa := himp a (List.mem_cons_self a t) hpa
          rw [hpa, hqa] at heq
          simp only [if_true] at heq
          omega
        · have hpa2 : p a = false := by rwa [Bool.not_eq_true] at hpa
          rw [hpa2] at heq
          by_cases hqa : q a = true
          · rw [hqa] at heq
            simp only [Bool.false_eq_true, if_false, if_true] at heq
            omega
          · have hqa2 : q a = false := by rwa [Bool.not_eq_true] at hqa
            rw [hqa2] at heq
            simp only [Bool.false_eq_true, if_false] at heq
            omega
      exact ih (fun y hy => himp y (List.mem_cons_of_mem a hy)) hcount x h hqx

theorem countP_or_single {α : Type} [DecidableEq α] (p : α → Bool) (l : List α) (a : α)
    (hl : l.Nodup) (ha : a ∈ l) (hpa : p a = false) :
    l.countP (fun x => p x || decide (x = a)) = l.countP p + 1 := by
  induction l with
  | nil => cases ha
  | cons x t ih =>
    obtain ⟨hx, ht⟩ := List.nodup_cons.mp hl
    rw [List.countP_cons, List.countP_cons]
    rcases List.mem_cons.mp ha with h | h
    · have hc : t.countP (fun y => p y || decide (y = a)) = t.countP p := by
        apply List.countP_congr
        intro y hy
        have hya : ¬ (y = a) := fun hh => hx (h ▸ hh ▸ hy)
        simp [hya]
      have hxa : (x = a) := h.symm
      rw [hc, hxa, hpa]
      simp
    · have hax : ¬ (x = a) := fun hh => hx (hh ▸ h)
      rw [ih ht h]
      cases hpx : p x <;> simp [hax] <;> omega

/-! ### Adjacency and visited-degree lemmas -/

theorem adj_symm {p q : Pixel} (h : Adj p q) : Adj q p := by
  obtain ⟨d, hd, rfl⟩ := h
  exact ⟨(-d.1, -d.2), neg_mem_offs8 d hd, (padd_neg_cancel p d).symm⟩

theorem adj_ne {p q : Pixel} (h : Adj p q) : p ≠ q := by
  obtain ⟨d, hd, rfl⟩ := h
  intro heq
  have h1 : p.1 = p.1 + d.1 := congrArg Prod.fst heq
  have h2 : p.2 = p.2 + d.2 := congrArg Prod.snd heq
  have hd1 : d.1 = 0 := by omega
  have hd2 : d.2 = 0 := by omega
  have hdz : d = ((0 : ℤ), (0 : ℤ)) := by
    obtain ⟨e1, e2⟩ := d
    simp only [Prod.mk.injEq]
    exact ⟨hd1, hd2⟩
  rw [hdz] at hd
  exact absurd hd (by decide)

theorem adj_padd {p : Pixel} {d : Pixel} (hd : d ∈ offs8) : Adj p (padd p d) :=
  ⟨d, hd, rfl⟩

theorem vdeg_cons_ne (S : List Pixel) (V : List (Pixel × Pixel)) (a b q : Pixel)
    (h : a ≠ q) : vdeg S ((a, b) :: V) q = vdeg S V q := by
  unfold vdeg
  apply List.countP_congr
  intro d _
  simp only [decide_eq_true_eq, List.mem_cons]
  constructor
  · rintro ⟨hS, he | he⟩
    · injection he with he1 he2
      exact absurd he1.symm h
    · exact ⟨hS, he⟩
  · rintro ⟨hS, he⟩
    exact ⟨hS, Or.inr he⟩

theorem vdeg_cons_self (S : List Pixel) (V : List (Pixel × Pixel)) (a b : Pixel)
    (d0 : Pixel) (hd0 : d0 ∈ offs8) (hb : padd a d0 = b) (hbS : b ∈ S)
    (hfresh : (a, b) ∉ V) :
    vdeg S ((a, b) :: V) a = vdeg S V a + 1 := by
  unfold vdeg
  have h1 : offs8.countP (fun d => decide (padd a d ∈ S ∧ (a, padd a d) ∈ (a, b) :: V))
      = offs8.countP
          (fun d => decide (padd a d ∈ S ∧ (a, padd a d) ∈ V) || decide (d = d0)) := by
    apply List.countP_congr
    intro d _
    by_cases hdd : d = d0
    · subst hdd
      rw [hb]
      simp [hbS]
    · simp only [decide_eq_true_eq, List.mem_cons, Bool.or_eq_true]
      constructor
      · rintro ⟨hS, he | he⟩
        · injection he with he1 he2
          exact absurd (padd_left_cancel (he2.trans hb.symm)) hdd
        · exact Or.inl ⟨hS, he⟩
      · rintro (⟨hS, he⟩ | he)
        · exact ⟨hS, Or.inr he⟩
        · exact absurd he hdd
  rw [h1, countP_or_single _ offs8 d0 offs8_nodup hd0]
  rw [hb]
  simp [hfresh]

theorem vdeg_pair_self {S : List Pixel} {V : List (Pixel × Pixel)} {x y : Pixel}
    (hyS : y ∈ S) (hadj : Adj x y) (hfresh : (x, y) ∉ V) :
    vdeg S ((x, y) :: (y, x) :: V) x = vdeg S V x + 1 := by
  have hxy : x ≠ y := adj_ne hadj
  obtain ⟨d, hd, hde⟩ := hadj
  have hfresh2 : (x, y) ∉ (y, x) :: V := by
    intro hmem
    rcases List.mem_cons.mp hmem with he | he
    · injection he with he1 he2
      exact hxy he1
    · exact hfresh he
  rw [vdeg_cons_self S _ x y d hd hde.symm hyS hfresh2,
    vdeg_cons_ne S V y x x (Ne.symm hxy)]

theorem vdeg_pair_other {S : List Pixel} (V : List (Pixel × Pixel)) {x y : Pixel}
    (q : Pixel) (hqx : x ≠ q) (hqy : y ≠ q) :
    vdeg S ((x, y) :: (y, x) :: V) q = vdeg S V q := by
  rw [vdeg_cons_ne S _ x y q hqx, vdeg_cons_ne S V y x q hqy]

theorem nbrVal_interior_count {S : List Pixel} {p : Pixel} (hp : p ∈ S)
    (h12 : nbrVal S p = 12) :
    offs8.countP (fun d => decide (padd p d ∈ S)) = 2 := by
  unfold nbrVal at h12
  rw [if_pos hp] at h12
  omega

theorem interior_vdeg_full {S : List Pixel} {V : List (Pixel × Pixel)} {p : Pixel}
    (hp : p ∈ S) (h12 : nbrVal S p = 12) (hdeg : vdeg S V p = 2) :
    ∀ d ∈ offs8, padd p d ∈ S → (p, padd p d) ∈ V := by
  have h2 := nbrVal_interior_count hp h12
  have himp : ∀ d ∈ offs8,
      (fun d => decide (padd p d ∈ S ∧ (p, padd p d) ∈ V)) d = true →
      (fun d => decide (padd p d ∈ S)) d = true := by
    intro d _ hd
    simp only [decide_eq_true_eq] at hd ⊢
    exact hd.1
  have hrev := countP_mono_eq_imp _ _ offs8 himp
    (by unfold vdeg at hdeg; rw [hdeg, h2])
  intro d hd hdS
  have := hrev d hd (by simp [hdS])
  simp only [decide_eq_true_eq] at this
  exact this.2

theorem tail_fresh {S : List Pixel} {V : List (Pixel × Pixel)} {last prev nxt : Pixel}
    (hdeg : vdeg S V last = 1) (hprevV : (last, prev) ∈ V)
    (hprevS : prev ∈ S) (hadj : Adj last prev)
    (hnxtS : nxt ∈ S) (hadjn : Adj last nxt) (hne : nxt ≠ prev) :
    (last, nxt) ∉ V := by
  intro hmem
  obtain ⟨dp, hdp, hdpe⟩ := hadj
  obtain ⟨dn, hdn, hdne⟩ := hadjn
  have hdpn : dp ≠ dn := by
    rintro rfl
    exact hne (hdne.trans hdpe.symm)
  have h2 : 2 ≤ vdeg S V last := by
    unfold vdeg
    refine countP_two_le _ offs8 dp dn offs8_nodup hdp hdn hdpn ?_ ?_
    · simp only [decide_eq_true_eq]
      rw [← hdpe]
      exact ⟨hprevS, hprevV⟩
    · simp only [decide_eq_true_eq]
      rw [← hdne]
      exact ⟨hnxtS, hmem⟩
  omega

theorem interior_fresh_vdeg_zero {S : List Pixel} {V : List (Pixel × Pixel)}
    {n p : Pixel} (hn : n ∈ S) (h12 : nbrVal S n = 12)
    (hdeg : vdeg S V n = 0 ∨ vdeg S V n = 2)
    (hp : p ∈ S) (hadj : Adj n p) (hfresh : (n, p) ∉ V) : vdeg S V n = 0 := by
  rcases hdeg with h | h
  · exact h
  · exfalso
    obtain ⟨d, hd, hde⟩ := hadj
    have hmem := interior_vdeg_full hn h12 h d hd (by rw [← hde]; exact hp)
    rw [← hde] at hmem
    exact hfresh hmem

/-! ### A size bound for the visited set -/

theorem mem_dirAdj {S : List Pixel} {a b : Pixel} (ha : a ∈ S) (hb : b ∈ S)
    (hadj : Adj a b) : (a, b) ∈ dirAdj S := by
  obtain ⟨d, hd, rfl⟩ := hadj
  unfold dirAdj
  apply List.mem_flatMap.mpr
  refine ⟨a, ha, ?_⟩
  apply List.mem_filterMap.mpr
  exact ⟨d, hd, by rw [if_pos hb]⟩

theorem dirAdj_length_le (S : List Pixel) : (dirAdj S).length ≤ 8 * S.length := by
  unfold dirAdj
  suffices h : ∀ l : List Pixel,
      (l.flatMap (fun a => offs8.filterMap
        (fun d => if padd a d ∈ S then some (a, padd a d) else none))).length ≤
        8 * l.length by exact h S
  intro l
  induction l with
  | nil => simp
  | cons a t ih =>
    rw [List.flatMap_cons, List.length_append]
    have hle : (offs8.filterMap
        (fun d => if padd a d ∈ S then some (a, padd a d) else none)).length ≤
        offs8.length := List.length_filterMap_le _ _
    have h8 : offs8.length = 8 := rfl
    rw [List.length_cons]
    omega

theorem visited_length_le {S : List Pixel} {V : List (Pixel × Pixel)}
    (hnd : V.Nodup) (hVE : ∀ ab ∈ V, ab.1 ∈ S ∧ ab.2 ∈ S ∧ Adj ab.1 ab.2) :
    V.length ≤ 8 * S.length := by
  have h1 : V.length ≤ (dirAdj S).length := by
    refine (List.subperm_of_subset hnd ?_).length_le
    intro ab hab
    obtain ⟨h1, h2, h3⟩ := hVE ab hab
    have := mem_dirAdj h1 h2 h3
    cases ab
    exact this
  exact h1.trans (dirAdj_length_le S)

theorem findNext_interior_some {S : List Pixel} (prev : Pixel) {last : Pixel}
    (hlast : last ∈ S) (h12 : nbrVal S last = 12) :
    ∃ nxt, findNext S prev last = some nxt := by
  have h2 := nbrVal_interior_count hlast h12
  have hex : ∃ d ∈ offs8, padd last d ∈ S ∧ padd last d ≠ prev := by
    by_contra hcon
    push_neg at hcon
    have hle : offs8.countP (fun d => decide (padd last d ∈ S)) ≤
        offs8.countP (fun d => decide (padd last d = prev)) := by
      apply List.countP_mono_left
      intro d hd hdp
      simp only [decide_eq_true_eq] at hdp ⊢
      exact hcon d hd hdp
    have hone : offs8.countP (fun d => decide (padd last d = prev)) ≤ 1 := by
      by_cases hexd : ∃ d0 ∈ offs8, padd last d0 = prev
      · obtain ⟨d0, hd0, he0⟩ := hexd
        have hc : offs8.countP (fun d => decide (padd last d = prev)) =
            offs8.countP (fun d => decide (d = d0)) := by
          apply List.countP_congr
          intro d _
          simp only [decide_eq_true_eq]
          constructor
          · intro he
            exact padd_left_cancel (he.trans he0.symm)
          · rintro rfl
            exact he0
        rw [hc, countP_eq_single d0 offs8 offs8_nodup hd0]
      · push_neg at hexd
        have hz : offs8.countP (fun d => decide (padd last d = prev)) = 0 := by
          apply List.countP_eq_zero.mpr
          intro d hd
          simp only [decide_eq_true_eq]
          exact hexd d hd
        omega
    omega
  obtain ⟨d, hd, hdS, hdp⟩ := hex
  cases hfd : offs8.find? (fun d => decide (padd last d ∈ S ∧ padd last d ≠ prev)) with
  | none =>
    exfalso
    have hall := List.find?_eq_none.mp hfd d hd
    simp only [decide_eq_true_eq, not_and] at hall
    exact hall hdS hdp
  | some d2 =>
    refine ⟨padd last d2, ?_⟩
    unfold findNext
    rw [hfd]
    rfl

/-! ### Step equations for the phase-2 trace -/

theorem trace2_zero (rem : List Pixel) (cur : Pixel) (racc : List Pixel) :
    trace2 0 rem cur racc = (racc.reverse, rem) := rfl

theorem trace2_succ_none {rem : List Pixel} {cur : Pixel} (fuel : ℕ)
    (racc : List Pixel)
    (hfd : offs9.find? (fun d => decide (padd cur d ∈ rem)) = none) :
    trace2 (fuel + 1) rem cur racc = (racc.reverse, rem) := by
  have h : trace2 (fuel + 1) rem cur racc =
      match offs9.find? (fun d => decide (padd cur d ∈ rem)) with
      | some d => trace2 fuel (rem.erase (padd cur d)) (padd cur d) (padd cur d :: racc)
      | none => (racc.reverse, rem) := rfl
  rw [h, hfd]

theorem trace2_succ_some {rem : List Pixel} {cur d : Pixel} (fuel : ℕ)
    (racc : List Pixel)
    (hfd : offs9.find? (fun d => decide (padd cur d ∈ rem)) = some d) :
    trace2 (fuel + 1) rem cur racc =
      trace2 fuel (rem.erase (padd cur d)) (padd cur d) (padd cur d :: racc) := by
  have h : trace2 (fuel + 1) rem cur racc =
      match offs9.find? (fun d => decide (padd cur d ∈ rem)) with
      | some d => trace2 fuel (rem.erase (padd cur d)) (padd cur d) (padd cur d :: racc)
      | none => (racc.reverse, rem) := rfl
  rw [h, hfd]

/-! ### Edge invariants of the phase-2 sweep -/

theorem trace2_main_inv (S : List Pixel) :
    ∀ (fuel : ℕ) (rem : List Pixel) (cur : Pixel) (rest : List Pixel),
      (∀ x ∈ rem, x ∈ S) → rem.Nodup → cur ∈ S → cur ∉ rem →
      (∀ x ∈ cur :: rest, x ∈ S) → (∀ x ∈ cur :: rest, x ∉ rem) →
      (cur :: rest).Nodup →
      (∀ e ∈ strokeEdges (cur :: rest), e.1 ∈ S ∧ e.2 ∈ S ∧ Adj e.1 e.2) →
      ((∀ x ∈ (trace2 fuel rem cur (cur :: rest)).2, x ∈ rem) ∧
        (trace2 fuel rem cur (cur :: rest)).2.Nodup ∧
        (trace2 fuel rem cur (cur :: rest)).1.Nodup ∧
        (∀ x ∈ (trace2 fuel rem cur (cur :: rest)).1, x ∈ S) ∧
        (∀ x ∈ (trace2 fuel rem cur (cur :: rest)).1, x ∈ cur :: rest ∨ x ∈ rem) ∧
        (∀ x ∈ (trace2 fuel rem cur (cur :: rest)).1,
          x ∉ (trace2 fuel rem cur (cur :: rest)).2) ∧
        (∀ e ∈ strokeEdges (trace2 fuel rem cur (cur :: rest)).1,
          e.1 ∈ S ∧ e.2 ∈ S ∧ Adj e.1 e.2)) := by
  intro fuel
  induction fuel with
  | zero =>
    intro rem cur rest hsub hnd hcur hcn hrS hrdisj hrnd hredge
    rw [trace2_zero]
    refine ⟨fun x hx => hx, hnd, List.nodup_reverse.mpr hrnd, ?_, ?_, ?_, ?_⟩
    · intro x hx
      exact hrS x (List.mem_reverse.mp hx)
    · intro x hx
      exact Or.inl (List.mem_reverse.mp hx)
    · intro x hx
      exact hrdisj x (List.mem_reverse.mp hx)
    · intro e he
      rw [strokeEdges_reverse] at he
      exact hredge e (List.mem_reverse.mp he)
  | succ n ih =>
    intro rem cur rest hsub hnd hcur hcn hrS hrdisj hrnd hredge
    cases hfd : offs9.find? (fun d => decide (padd cur d ∈ rem)) with
    | none =>
      rw [trace2_succ_none n _ hfd]
      refine ⟨fun x hx => hx, hnd, List.nodup_reverse.mpr hrnd, ?_, ?_, ?_, ?_⟩
      · intro x hx
        exact hrS x (List.mem_reverse.mp hx)
      · intro x hx
        exact Or.inl (List.mem_reverse.mp hx)
      · intro x hx
        exact hrdisj x (List.mem_reverse.mp hx)
      · intro e he
        rw [strokeEdges_reverse] at he
        exact hredge e (List.mem_reverse.mp he)
    | some d =>
      rw [trace2_succ_some n _ hfd]
      obtain ⟨hd9, hdm⟩ := find2_some hfd
      have hnc : padd cur d ≠ cur := fun h => hcn (h ▸ hdm)
      have hd8 : d ∈ offs8 := by
        rcases offs9_zero_or_offs8 d hd9 with h0 | h8
        · exact absurd (h0 ▸ padd_zero cur) hnc
        · exact h8
      have hadj : Adj cur (padd cur d) := adj_padd hd8
      have hnS : padd cur d ∈ S := hsub _ hdm
      have hnrest : padd cur d ∉ cur :: rest := fun hmem => hrdisj _ hmem hdm
      have hsub2 : ∀ x ∈ rem.erase (padd cur d), x ∈ S :=
        fun x hx => hsub x (List.mem_of_mem_erase hx)
      have hnd2 : (rem.erase (padd cur d)).Nodup := hnd.erase _
      have hcn2 : padd cur d ∉ rem.erase (padd cur d) := hnd.not_mem_erase
      have hrS2 : ∀ x ∈ padd cur d :: cur :: rest, x ∈ S := by
        intro x hx
        rcases List.mem_cons.mp hx with h | h
        · exact h ▸ hnS
        · exact hrS x h
      have hrdisj2 : ∀ x ∈ padd cur d :: cur :: rest, x ∉ rem.erase (padd cur d) := by
        intro x hx
        rcases List.mem_cons.mp hx with h | h
        · exact h ▸ hcn2
        · exact fun hmem => hrdisj x h (List.mem_of_mem_erase hmem)
      have hrnd2 : (padd cur d :: cur :: rest).Nodup :=
        List.nodup_cons.mpr ⟨hnrest, hrnd⟩
      have hredge2 : ∀ e ∈ strokeEdges (padd cur d :: cur :: rest),
          e.1 ∈ S ∧ e.2 ∈ S ∧ Adj e.1 e.2 := by
        intro e he
        rw [strokeEdges_cons2] at he
        rcases List.mem_cons.mp he with h | h
        · subst h
          rcases normEdge_endpoints (padd cur d) cur with ⟨h1, h2⟩ | ⟨h1, h2⟩ <;>
            rw [h1, h2]
          · exact ⟨hnS, hcur, adj_symm hadj⟩
          · exact ⟨hcur, hnS, hadj⟩
        · exact hredge e h
      obtain ⟨c1, c2, c3, c4, c5, c6, c7⟩ := ih (rem.erase (padd cur d)) (padd cur d)
        (cur :: rest) hsub2 hnd2 hnS hcn2 hrS2 hrdisj2 hrnd2 hredge2
      refine ⟨?_, c2, c3, c4, ?_, c6, c7⟩
      · intro x hx
        exact List.mem_of_mem_erase (c1 x hx)
      · intro x hx
        rcases c5 x hx with h | h
        · rcases List.mem_cons.mp h with h2 | h2
          · exact Or.inr (h2 ▸ hdm)
          · exact Or.inl h2
        · exact Or.inr (List.mem_of_mem_erase h)

theorem phase2_step_eq (pick : List Pixel → Pixel) (fuel : ℕ) {rem : List Pixel}
    (hne : ¬ rem.isEmpty) (hp : pick rem ∈ rem) :
    phase2 pick (fuel + 1) rem =
      (trace2 ((rem.erase (pick rem)).length + 1) (rem.erase (pick rem))
        (pick rem) [pick rem]).1 ::
      phase2 pick fuel
        (trace2 ((rem.erase (pick rem)).length + 1) (rem.erase (pick rem))
          (pick rem) [pick rem]).2 := by
  have h : phase2 pick (fuel + 1) rem =
      if rem.isEmpty then []
      else if pick rem ∈ rem then
        (trace2 ((rem.erase (pick rem)).length + 1) (rem.erase (pick rem))
          (pick rem) [pick rem]).1 ::
          phase2 pick fuel
            (trace2 ((rem.erase (pick rem)).length + 1) (rem.erase (pick rem))
              (pick rem) [pick rem]).2
      else [] := rfl
  rw [h, if_neg hne, if_pos hp]

theorem phase2_main_inv (S : List Pixel) (pick : List Pixel → Pixel) :
    ∀ (fuel : ℕ) (rem : List Pixel), (∀ x ∈ rem, x ∈ S) → rem.Nodup →
      ((∀ s ∈ phase2 pick fuel rem, s.Nodup ∧ (∀ x ∈ s, x ∈ rem)) ∧
        (phase2 pick fuel rem).Pairwise (fun s1 s2 => ∀ x ∈ s1, x ∉ s2) ∧
        (∀ s ∈ phase2 pick fuel rem, ∀ e ∈ strokeEdges s,
          e.1 ∈ S ∧ e.2 ∈ S ∧ Adj e.1 e.2)) := by
  intro fuel
  induction fuel with
  | zero =>
    intro rem _ _
    exact ⟨fun s hs => absurd hs (List.not_mem_nil s), List.Pairwise.nil,
      fun s hs => absurd hs (List.not_mem_nil s)⟩
  | succ n ih =>
    intro rem hsub hnd
    by_cases hemp : rem.isEmpty
    · unfold phase2
      rw [if_pos hemp]
      exact ⟨fun s hs => absurd hs (List.not_mem_nil s), List.Pairwise.nil,
        fun s hs => absurd hs (List.not_mem_nil s)⟩
    · by_cases hp : pick rem ∈ rem
      · rw [phase2_step_eq pick n hemp hp]
        have hpS : pick rem ∈ S := hsub _ hp
        have hsub2 : ∀ x ∈ rem.erase (pick rem), x ∈ S :=
          fun x hx => hsub x (List.mem_of_mem_erase hx)
        have hnd2 : (rem.erase (pick rem)).Nodup := hnd.erase _
        have hcn2 : pick rem ∉ rem.erase (pick rem) := hnd.not_mem_erase
        obtain ⟨c1, c2, c3, c4, c5, c6, c7⟩ :=
          trace2_main_inv S ((rem.erase (pick rem)).length + 1) (rem.erase (pick rem))
            (pick rem) [] hsub2 hnd2 hpS hcn2
            (by intro x hx; simp only [List.mem_singleton] at hx; exact hx ▸ hpS)
            (by intro x hx; simp only [List.mem_singleton] at hx; exact hx ▸ hcn2)
            (List.nodup_singleton _)
            (by intro e he; rw [strokeEdges_single] at he; cases he)
        obtain ⟨ihA, ihB, ihC⟩ := ih _ (fun x hx => hsub2 x (c1 x hx)) c2
        refine ⟨?_, ?_, ?_⟩
        · intro s hs
          rcases List.mem_cons.mp hs with h | h
          · subst h
            refine ⟨c3, ?_⟩
            intro x hx
            rcases c5 x hx with h2 | h2
            · simp only [List.mem_singleton] at h2
              exact h2 ▸ hp
            · exact List.mem_of_mem_erase h2
          · obtain ⟨hnds, hsubs⟩ := ihA s h
            exact ⟨hnds, fun x hx =>
              List.mem_of_mem_erase (c1 x (hsubs x hx))⟩
        · refine List.pairwise_cons.mpr ⟨?_, ihB⟩
          intro s2 hs2 x hx hxs2
          exact c6 x hx ((ihA s2 hs2).2 x hxs2)
        · intro s hs
          rcases List.mem_cons.mp hs with h | h
          · exact h ▸ c7
          · exact ihC s h
      · unfold phase2
        rw [if_neg hemp, if_neg hp]
        exact ⟨fun s hs => absurd hs (List.not_mem_nil s), List.Pairwise.nil,
          fun s hs => absurd hs (List.not_mem_nil s)⟩

theorem allEdges_nodup_of_parts {strokes : List (List Pixel)}
    (h1 : ∀ s ∈ strokes, (strokeEdges s).Nodup)
    (h2 : strokes.Pairwise (fun s1 s2 => ∀ x ∈ s1, x ∉ s2)) :
    (allEdges strokes).Nodup := by
  induction strokes with
  | nil => exact List.nodup_nil
  | cons s rest ih =>
    rw [allEdges_cons]
    obtain ⟨hhead, htail⟩ := List.pairwise_cons.mp h2
    rw [List.nodup_append]
    refine ⟨h1 s (List.mem_cons_self s rest),
      ih (fun s2 hs2 => h1 s2 (List.mem_cons_of_mem s hs2)) htail, ?_⟩
    intro e he hmem
    obtain ⟨s2, hs2, he1, he2⟩ := mem_allEdges_endpoint hmem
    obtain ⟨hf1, hf2⟩ := strokeEdges_endpoint_mem s e he
    exact hhead s2 hs2 e.1 hf1 he1

/-! ### Edge invariants of a phase-1 trace -/

theorem vdeg_pair_snd {S : List Pixel} {V : List (Pixel × Pixel)} {x y : Pixel}
    (hxS : x ∈ S) (hadj : Adj y x) (hfresh : (y, x) ∉ V) (hxy : x ≠ y) :
    vdeg S ((x, y) :: (y, x) :: V) y = vdeg S V y + 1 := by
  rw [vdeg_cons_ne S _ x y y hxy]
  obtain ⟨d, hd, hde⟩ := hadj
  exact vdeg_cons_self S V y x d hd hde.symm hxS hfresh

theorem traceInv_return {S : List Pixel} {strokes : List (List Pixel)}
    {V : List (Pixel × Pixel)} {prev last : Pixel} {rroot : List Pixel}
    (hinv : TraceInv S strokes V prev last rroot)
    (h12 : nbrVal S last ≠ 12) :
    EdgeInv S (strokes ++ [(last :: prev :: rroot).reverse]) V := by
  obtain ⟨hSym, hVE, hVnd, hRel, hDegE, hTail, hlpV, hlS, hpS, hAdjlp, hEnd,
    hDisj, hGood, hAnd⟩ := hinv
  have hrev : ∀ e : Pixel × Pixel,
      e ∈ strokeEdges (last :: prev :: rroot).reverse ↔
        e ∈ strokeEdges (last :: prev :: rroot) := by
    intro e
    rw [strokeEdges_reverse]
    exact List.mem_reverse
  refine ⟨hSym, hVE, hVnd, ?_, ?_, ?_⟩
  · intro a b
    rw [hRel a b, allEdges_append]
    simp only [allEdges_cons, allEdges_nil, List.append_nil, List.mem_append]
    exact or_congr Iff.rfl (hrev _).symm
  · intro p hp h12p
    by_cases hpl : p = last
    · exact absurd (hpl ▸ h12p) h12
    · exact hDegE p hp hpl h12p
  · rw [allEdges_append, List.nodup_append]
    refine ⟨hAnd, ?_, ?_⟩
    · simp only [allEdges_cons, allEdges_nil, List.append_nil]
      rw [strokeEdges_reverse]
      exact List.nodup_reverse.mpr hEnd
    · intro e he
      simp only [allEdges_cons, allEdges_nil, List.append_nil]
      intro hmem
      exact hDisj e ((hrev e).mp hmem) he

theorem traceFrom_edge_inv (S : List Pixel) (strokes : List (List Pixel)) :
    ∀ (fuel : ℕ) (V : List (Pixel × Pixel)) (prev last : Pixel) (rroot : List Pixel),
      8 * S.length < fuel + V.length →
      TraceInv S strokes V prev last rroot →
      EdgeInv S
        (strokes ++ [(traceFrom S fuel V prev last (last :: prev :: rroot)).1])
        (traceFrom S fuel V prev last (last :: prev :: rroot)).2 := by
  intro fuel
  induction fuel with
  | zero =>
    intro V prev last rroot hfuel hinv
    exfalso
    obtain ⟨hSym, hVE, hVnd, _⟩ := hinv
    have := visited_length_le hVnd hVE
    omega
  | succ n ih =>
    intro V prev last rroot hfuel hinv
    by_cases h12 : nbrVal S last = 12
    · obtain ⟨hSym, hVE, hVnd, hRel, hDegE, hTail, hlpV, hlS, hpS, hAdjlp, hEnd,
        hDisj, hGood, hAnd⟩ := hinv
      obtain ⟨nxt0, hfn0⟩ := findNext_interior_some prev hlS h12
      obtain ⟨d, hd, hnxteq, hnxtS, hnxtprev⟩ := findNext_some hfn0
      have hstep : traceFrom S (n + 1) V prev last (last :: prev :: rroot) =
          traceFrom S n ((last, nxt0) :: (nxt0, last) :: V) last nxt0
            (nxt0 :: last :: prev :: rroot) := by
        have h0 : traceFrom S (n + 1) V prev last (last :: prev :: rroot) =
            if nbrVal S last = 12 then
              match findNext S prev last with
              | some nxt => traceFrom S n ((last, nxt) :: (nxt, last) :: V) last nxt
                  (nxt :: (last :: prev :: rroot))
              | none => ((last :: prev :: rroot).reverse, V)
            else ((last :: prev :: rroot).reverse, V) := rfl
        rw [h0, if_pos h12, hfn0]
      rw [hstep]
      have hAdjln : Adj last nxt0 := by
        rw [hnxteq]
        exact adj_padd hd
      have hvdeg1 : vdeg S V last = 1 := hTail h12
      have hfresh : (last, nxt0) ∉ V :=
        tail_fresh hvdeg1 hlpV hpS hAdjlp hnxtS hAdjln hnxtprev
      have hfresh2 : (nxt0, last) ∉ V := fun h => hfresh (hSym nxt0 last h)
      have hnl : last ≠ nxt0 := adj_ne hAdjln
      refine ih ((last, nxt0) :: (nxt0, last) :: V) last nxt0 (prev :: rroot)
        (by simp only [List.length_cons]; omega) ?_
      refine ⟨?_, ?_, ?_, ?_, ?_, ?_, ?_, hnxtS, hlS, adj_symm hAdjln, ?_, ?_, ?_, hAnd⟩
      · intro a b hab
        rcases List.mem_cons.mp hab with he | he
        · injection he with h1 h2
          subst h1
          subst h2
          exact List.mem_cons_of_mem _ (List.mem_cons_self _ _)
        · rcases List.mem_cons.mp he with he2 | he2
          · injection he2 with h1 h2
            subst h1
            subst h2
            exact List.mem_cons_self _ _
          · exact List.mem_cons_of_mem _ (List.mem_cons_of_mem _ (hSym a b he2))
      · intro ab hab
        rcases List.mem_cons.mp hab with he | he
        · subst he
          exact ⟨hlS, hnxtS, hAdjln⟩
        · rcases List.mem_cons.mp he with he2 | he2
          · subst he2
            exact ⟨hnxtS, hlS, adj_symm hAdjln⟩
          · exact hVE ab he2
      · refine List.nodup_cons.mpr ⟨?_, List.nodup_cons.mpr ⟨hfresh2, hVnd⟩⟩
        intro hmem
        rcases List.mem_cons.mp hmem with he | he
        · injection he with h1 h2
          exact hnl h1
        · exact hfresh he
      · intro a b
        rw [strokeEdges_cons2]
        constructor
        · intro hab
          rcases List.mem_cons.mp hab with he | he
          · injection he with h1 h2
            subst h1
            subst h2
            right
            rw [normEdge_comm]
            exact List.mem_cons_self _ _
          · rcases List.mem_cons.mp he with he2 | he2
            · injection he2 with h1 h2
              subst h1
              subst h2
              right
              exact List.mem_cons_self _ _
            · rcases (hRel a b).mp he2 with h | h
              · exact Or.inl h
              · exact Or.inr (List.mem_cons_of_mem _ h)
        · intro hor
          rcases hor with h | h
          · exact List.mem_cons_of_mem _
              (List.mem_cons_of_mem _ ((hRel a b).mpr (Or.inl h)))
          · rcases List.mem_cons.mp h with he | he
            · rcases normEdge_eq_imp he with ⟨h1, h2⟩ | ⟨h1, h2⟩
              · subst h1
                subst h2
                exact List.mem_cons_of_mem _ (List.mem_cons_self _ _)
              · subst h1
                subst h2
                exact List.mem_cons_self _ _
            · exact List.mem_cons_of_mem _
                (List.mem_cons_of_mem _ ((hRel a b).mpr (Or.inr he)))
      · intro p hp hpne h12p
        by_cases hplast : p = last
        · subst hplast
          right
          rw [vdeg_pair_self hnxtS hAdjln hfresh, hvdeg1]
        · have heq : vdeg S ((last, nxt0) :: (nxt0, last) :: V) p = vdeg S V p :=
            vdeg_pair_other V p (fun h => hplast h.symm) (fun h => hpne h.symm)
          rw [heq]
          exact hDegE p hp hplast h12p
      · intro h12n
        have hz : vdeg S V nxt0 = 0 :=
          interior_fresh_vdeg_zero hnxtS h12n
            (hDegE nxt0 hnxtS (Ne.symm hnl) h12n) hlS (adj_symm hAdjln) hfresh2
        rw [vdeg_pair_snd hlS (adj_symm hAdjln) hfresh2 hnl, hz]
      · exact List.mem_cons_of_mem _ (List.mem_cons_self _ _)
      · rw [strokeEdges_cons2]
        refine List.nodup_cons.mpr ⟨?_, hEnd⟩
        intro hmem
        exact hfresh2 ((hRel nxt0 last).mpr (Or.inr hmem))
      · intro e he
        rw [strokeEdges_cons2] at he
        rcases List.mem_cons.mp he with heq | he2
        · subst heq
          intro hmem
          exact hfresh2 ((hRel nxt0 last).mpr (Or.inl hmem))
        · exact hDisj e he2
      · intro e he
        rw [strokeEdges_cons2] at he
        rcases List.mem_cons.mp he with heq | he2
        · subst heq
          rcases normEdge_endpoints nxt0 last with ⟨h1, h2⟩ | ⟨h1, h2⟩ <;> rw [h1, h2]
          · exact ⟨hnxtS, hlS, adj_symm hAdjln⟩
          · exact ⟨hlS, hnxtS, hAdjln⟩
        · exact hGood e he2
    · have hstop : traceFrom S (n + 1) V prev last (last :: prev :: rroot) =
          ((last :: prev :: rroot).reverse, V) := by
        unfold traceFrom
        rw [if_neg h12]
      rw [hstop]
      exact traceInv_return hinv h12

theorem dirsLoop_edge_inv (S : List Pixel) :
    ∀ (ds : List Pixel) (fuel : ℕ) (p : Pixel)
      (acc : List (List Pixel) × List (Pixel × Pixel)),
      (∀ d ∈ ds, d ∈ offs8) → p ∈ S → nbrVal S p ≠ 12 →
      8 * S.length + 8 ≤ fuel →
      EdgeInv S acc.1 acc.2 →
      EdgeInv S (dirsLoop S fuel p ds acc).1 (dirsLoop S fuel p ds acc).2 := by
  intro ds
  induction ds with
  | nil =>
    intro fuel p acc _ _ _ _ hinv
    exact hinv
  | cons d ds ih =>
    intro fuel p acc hds hp hp12 hfuel hinv
    obtain ⟨strokes, V⟩ := acc
    obtain ⟨hSym, hVE, hVnd, hRel, hDeg, hAnd⟩ := hinv
    have hd8 : d ∈ offs8 := hds d (List.mem_cons_self d ds)
    have hds2 : ∀ x ∈ ds, x ∈ offs8 := fun x hx => hds x (List.mem_cons_of_mem d hx)
    have hstep : dirsLoop S fuel p (d :: ds) (strokes, V) =
        if padd p d ∈ S ∧ (p, padd p d) ∉ V then
          dirsLoop S fuel p ds
            (strokes ++ [(traceFrom S fuel ((p, padd p d) :: (padd p d, p) :: V)
              p (padd p d) [padd p d, p]).1],
             (traceFrom S fuel ((p, padd p d) :: (padd p d, p) :: V)
              p (padd p d) [padd p d, p]).2)
        else dirsLoop S fuel p ds (strokes, V) := rfl
    rw [hstep]
    by_cases hc : padd p d ∈ S ∧ (p, padd p d) ∉ V
    · rw [if_pos hc]
      obtain ⟨hnS, hfresh⟩ := hc
      have hAdj : Adj p (padd p d) := adj_padd hd8
      have hpn : p ≠ padd p d := adj_ne hAdj
      have hfresh2 : (padd p d, p) ∉ V := fun hm => hfresh (hSym _ _ hm)
      have hedges : strokeEdges (padd p d :: p :: []) = [normEdge (padd p d) p] := rfl
      have hTI : TraceInv S strokes ((p, padd p d) :: (padd p d, p) :: V)
          p (padd p d) [] := by
        refine ⟨?_, ?_, ?_, ?_, ?_, ?_, ?_, hnS, hp, adj_symm hAdj, ?_, ?_, ?_, hAnd⟩
        · intro a b hab
          rcases List.mem_cons.mp hab with he | he
          · injection he with h1 h2
            subst h1
            subst h2
            exact List.mem_cons_of_mem _ (List.mem_cons_self _ _)
          · rcases List.mem_cons.mp he with he2 | he2
            · injection he2 with h1 h2
              subst h1
              subst h2
              exact List.mem_cons_self _ _
            · exact List.mem_cons_of_mem _ (List.mem_cons_of_mem _ (hSym a b he2))
        · intro ab hab
          rcases List.mem_cons.mp hab with he | he
          · subst he
            exact ⟨hp, hnS, hAdj⟩
          · rcases List.mem_cons.mp he with he2 | he2
            · subst he2
              exact ⟨hnS, hp, adj_symm hAdj⟩
            · exact hVE ab he2
        · refine List.nodup_cons.mpr ⟨?_, List.nodup_cons.mpr ⟨hfresh2, hVnd⟩⟩
          intro hmem
          rcases List.mem_cons.mp hmem with he | he
          · injection he with h1 h2
            exact hpn h1
          · exact hfresh he
        · intro a b
          rw [hedges]
          constructor
          · intro hab
            rcases List.mem_cons.mp hab with he | he
            · injection he with h1 h2
              subst h1
              subst h2
              right
              rw [normEdge_comm]
              exact List.mem_singleton.mpr rfl
            · rcases List.mem_cons.mp he with he2 | he2
              · injection he2 with h1 h2
                subst h1
                subst h2
                right
                exact List.mem_singleton.mpr rfl
              · exact Or.inl ((hRel a b).mp he2)
          · intro hor
            rcases hor with hmem | hmem
            · exact List.mem_cons_of_mem _
                (List.mem_cons_of_mem _ ((hRel a b).mpr hmem))
            · have he := List.mem_singleton.mp hmem
              rcases normEdge_eq_imp he with ⟨h1, h2⟩ | ⟨h1, h2⟩
              · subst h1
                subst h2
                exact List.mem_cons_of_mem _ (List.mem_cons_self _ _)
              · subst h1
                subst h2
                exact List.mem_cons_self _ _
        · intro q hq hqne h12q
          by_cases hqp : q = p
          · exact absurd (hqp ▸ h12q) hp12
          · have heq : vdeg S ((p, padd p d) :: (padd p d, p) :: V) q = vdeg S V q :=
              vdeg_pair_other V q (fun hh => hqp hh.symm) (fun hh => hqne hh.symm)
            rw [heq]
            exact hDeg q hq h12q
        · intro h12n
          have hz : vdeg S V (padd p d) = 0 :=
            interior_fresh_vdeg_zero hnS h12n (hDeg _ hnS h12n) hp
              (adj_symm hAdj) hfresh2
          rw [vdeg_pair_snd hp (adj_symm hAdj) hfresh2 hpn, hz]
        · exact List.mem_cons_of_mem _ (List.mem_cons_self _ _)
        · rw [hedges]
          exact List.nodup_singleton _
        · intro e he
          rw [hedges] at he
          have heq := List.mem_singleton.mp he
          subst heq
          intro hmem
          exact hfresh2 ((hRel (padd p d) p).mpr hmem)
        · intro e he
          rw [hedges] at he
          have heq := List.mem_singleton.mp he
          subst heq
          rcases normEdge_endpoints (padd p d) p with ⟨h1, h2⟩ | ⟨h1, h2⟩ <;> rw [h1, h2]
          · exact ⟨hnS, hp, adj_symm hAdj⟩
          · exact ⟨hp, hnS, hAdj⟩
      have htr := traceFrom_edge_inv S strokes fuel
        ((p, padd p d) :: (padd p d, p) :: V) p (padd p d) []
        (by simp only [List.length_cons]; omega) hTI
      exact ih fuel p _ hds2 hp hp12 hfuel htr
    · rw [if_neg hc]
      exact ih fuel p _ hds2 hp hp12 hfuel ⟨hSym, hVE, hVnd, hRel, hDeg, hAnd⟩

theorem phase1_edge_inv (S : List Pixel) :
    ∀ (ps : List Pixel) (fuel : ℕ) (acc : List (List Pixel) × List (Pixel × Pixel)),
      (∀ x ∈ ps, x ∈ S) → 8 * S.length + 8 ≤ fuel →
      EdgeInv S acc.1 acc.2 →
      EdgeInv S (phase1 S fuel ps acc).1 (phase1 S fuel ps acc).2 := by
  intro ps
  induction ps with
  | nil =>
    intro fuel acc _ _ hinv
    exact hinv
  | cons q qs ih =>
    intro fuel acc hps hfuel hinv
    have hstep : phase1 S fuel (q :: qs) acc =
        if nbrVal S q ≠ 12 ∧ nbrVal S q ≠ 11 then
          phase1 S fuel qs (dirsLoop S fuel q offs8 acc)
        else phase1 S fuel qs acc := rfl
    rw [hstep]
    by_cases hc : nbrVal S q ≠ 12 ∧ nbrVal S q ≠ 11
    · rw [if_pos hc]
      exact ih fuel _ (fun x hx => hps x (List.mem_cons_of_mem q hx)) hfuel
        (dirsLoop_edge_inv S offs8 fuel q acc (fun d hd => hd)
          (hps q (List.mem_cons_self q qs)) hc.1 hfuel hinv)
    · rw [if_neg hc]
      exact ih fuel _ (fun x hx => hps x (List.mem_cons_of_mem q hx)) hfuel hinv

theorem vdeg_nil (S : List Pixel) (p : Pixel) : vdeg S [] p = 0 := by
  unfold vdeg
  apply List.countP_eq_zero.mpr
  intro d _
  simp

theorem edgeInv_nil (S : List Pixel) : EdgeInv S [] [] := by
  refine ⟨?_, ?_, List.nodup_nil, ?_, ?_, ?_⟩
  · intro a b hm
    exact absurd hm (List.not_mem_nil _)
  · intro ab hm
    exact absurd hm (List.not_mem_nil _)
  · intro a b
    rw [allEdges_nil]
    constructor
    · intro hm
      exact absurd hm (List.not_mem_nil _)
    · intro hm
      exact absurd hm (List.not_mem_nil _)
  · intro p hp h12
    exact Or.inl (vdeg_nil S p)
  · rw [allEdges_nil]
    exact List.nodup_nil

theorem phase1Strokes_edge_inv (w h : ℕ) (grid : ℕ → ℕ → Bool) :
    ∃ V, EdgeInv (pixelList w h grid) (phase1Strokes w h grid) V := by
  unfold phase1Strokes
  refine ⟨(phase1 (pixelList w h grid) (8 * (pixelList w h grid).length + 8)
    (pixelList w h grid) ([], [])).2, ?_⟩
  exact phase1_edge_inv _ _ _ ([], []) (fun x hx => hx) (le_refl _) (edgeInv_nil _)

theorem edgeInv_endpoints {S : List Pixel} {strokes : List (List Pixel)}
    {V : List (Pixel × Pixel)} (hinv : EdgeInv S strokes V) :
    ∀ e ∈ allEdges strokes, e.1 ∈ S ∧ e.2 ∈ S ∧ Adj e.1 e.2 := by
  obtain ⟨hSym, hVE, hVnd, hRel, hDeg, hAnd⟩ := hinv
  intro e he
  obtain ⟨s, hs, hse⟩ := List.mem_flatMap.mp he
  obtain ⟨a, b, heq, hzip⟩ := mem_strokeEdges hse
  have hab : (a, b) ∈ V := (hRel a b).mpr (by rw [← heq]; exact he)
  obtain ⟨haS, hbS, hAdj⟩ := hVE (a, b) hab
  subst heq
  rcases normEdge_endpoints a b with ⟨h1, h2⟩ | ⟨h1, h2⟩ <;> rw [h1, h2]
  · exact ⟨haS, hbS, hAdj⟩
  · exact ⟨hbS, haS, adj_symm hAdj⟩

/-- C1 counterexample: on the 4-pixel diamond loop - a bounded mask whose four
foreground pixels are pairwise 8-connected around a cycle - the adjacent
foreground pair (1,0), (2,1) is an edge of the 8-connectivity graph, yet no
stroke of the extraction traverses it: the closed-loop sweep emits the loop as
an open path and drops its closing edge, so the stroke set does not cover
every edge of the connectivity graph. -/
theorem c1_counterexample :
    ((1 : ℤ), (0 : ℤ)) ∈ pixelList 3 3 diamondGrid ∧
      ((2 : ℤ), (1 : ℤ)) ∈ pixelList 3 3 diamondGrid ∧
      Adj ((1 : ℤ), (0 : ℤ)) ((2 : ℤ), (1 : ℤ)) ∧
      normEdge ((1 : ℤ), (0 : ℤ)) ((2 : ℤ), (1 : ℤ)) ∉
        allEdges (extractStrokes pickHead 3 3 diamondGrid) := by
  refine ⟨by decide, by decide, ⟨(1, 1), by decide, by decide⟩, by decide⟩

/-- C1 amended: for every bounded mask and every pop model, the strokes
returned by extraction traverse each undirected edge of the 8-connectivity
graph AT MOST once - the normalised consecutive pairs of all strokes are
pairwise distinct - and every consecutive pair of every stroke is a genuine
edge: both endpoints are foreground pixels and they are 8-adjacent.  (Some
edges may be left untraversed, as the diamond counterexample shows.) -/
theorem c1_edge_at_most_once (pick : List Pixel → Pixel) (w h : ℕ)
    (grid : ℕ → ℕ → Bool) :
    (allEdges (extractStrokes pick w h grid)).Nodup ∧
      (∀ e ∈ allEdges (extractStrokes pick w h grid),
        e.1 ∈ pixelList w h grid ∧ e.2 ∈ pixelList w h grid ∧ Adj e.1 e.2) := by
  by_cases hemp : (pixelList w h grid).isEmpty
  · unfold extractStrokes
    rw [if_pos hemp, allEdges_nil]
    exact ⟨List.nodup_nil, fun e he => absurd he (List.not_mem_nil e)⟩
  · unfold extractStrokes
    rw [if_neg hemp]
    obtain ⟨V, hinv⟩ := phase1Strokes_edge_inv w h grid
    have hP1good := edgeInv_endpoints hinv
    have hP1nd : (allEdges (phase1Strokes w h grid)).Nodup := hinv.2.2.2.2.2
    obtain ⟨h2A, h2B, h2C⟩ := phase2_main_inv (pixelList w h grid) pick
      ((phase2rem w h grid).length + 1) (phase2rem w h grid)
      (fun x hx => List.mem_of_mem_filter hx)
      ((pixelList_nodup w h grid).filter _)
    rw [allEdges_append]
    constructor
    · rw [List.nodup_append]
      refine ⟨hP1nd,
        allEdges_nodup_of_parts (fun s hs => strokeEdges_nodup s (h2A s hs).1) h2B, ?_⟩
      intro e he hmem
      obtain ⟨s1, hs1, he1, _⟩ := mem_allEdges_endpoint he
      obtain ⟨s2, hs2, hf1, _⟩ := mem_allEdges_endpoint hmem
      have hin : e.1 ∈ (phase1Strokes w h grid).flatten :=
        List.mem_flatten.mpr ⟨s1, hs1, he1⟩
      have hrem : e.1 ∈ phase2rem w h grid := (h2A s2 hs2).2 e.1 hf1
      have hout := List.of_mem_filter hrem
      simp only [decide_eq_true_eq] at hout
      exact hout hin
    · intro e he
      rcases List.mem_append.mp he with hm | hm
      · exact hP1good e hm
      · obtain ⟨s, hs, hse⟩ := List.mem_flatMap.mp hm
        exact h2C s hs e hse

end DrawingMachine
